import Mathlib

/-!
Verification of the package-resolution engine of the `turbo` AUR helper
(`src/aur.rs`): the SRCINFO parser, the GitHub mirror metadata source, and
the dependency resolver / build-order engine.

All definitions are shallow embeddings of the Rust source.  Network effects
are modelled by explicit response oracles; the standard-library hash map is
modelled by association lists, with the (seed-randomized, hence unspecified)
iteration order of `std::collections::HashMap` made explicit as a
permutation parameter where the code iterates over a map.
-/

set_option maxHeartbeats 1000000

namespace Turbo

/-! ## Data model

`AurInfo` mirrors the Rust struct `AurInfo` (src/aur.rs:26-40): one build
output of one source package.  Dependency lists are `Option (List String)`
exactly as in the Rust code (`Option<Vec<String>>`). -/

structure AurInfo where
  name : String
  pkgbase : String
  version : String
  depends : Option (List String)
  makedepends : Option (List String)
  checkdepends : Option (List String)
deriving Repr, DecidableEq, Inhabited

/-- The three dependency categories of a SRCINFO record. -/
inductive DepCat where
  | dep
  | makedep
  | checkdep
deriving Repr, DecidableEq

/-- Mirrors the Rust struct `DepFields` (src/aur.rs:366-371). -/
structure DepFields where
  depends : List String := []
  makedepends : List String := []
  checkdepends : List String := []
deriving Repr, DecidableEq, Inhabited

def DepFields.get (f : DepFields) : DepCat → List String
  | .dep => f.depends
  | .makedep => f.makedepends
  | .checkdep => f.checkdepends

def DepFields.push (f : DepFields) (cat : DepCat) (v : String) : DepFields :=
  match cat with
  | .dep => { f with depends := f.depends ++ [v] }
  | .makedep => { f with makedepends := f.makedepends ++ [v] }
  | .checkdep => { f with checkdepends := f.checkdepends ++ [v] }

/-! ## String helpers

The Rust code uses `str::trim`, `str::split_once('=')` and `str::lines`.
They are embedded as character-list functions so that every definition is
kernel-computable. -/

/-- Both-ends whitespace trim, embedding `str::trim`. -/
def asciiTrimList (l : List Char) : List Char :=
  ((l.dropWhile Char.isWhitespace).reverse.dropWhile Char.isWhitespace).reverse

def asciiTrim (s : String) : String := ⟨asciiTrimList s.data⟩

/-- Split at the first occurrence of a character, embedding
`str::split_once`.  Returns the parts before and after the separator. -/
def splitOnceAux (sep : Char) : List Char → Option (List Char × List Char)
  | [] => none
  | c :: cs =>
    if c = sep then some ([], cs)
    else
      match splitOnceAux sep cs with
      | some (k, v) => some (c :: k, v)
      | none => none

/-- `p` is a leading segment of `s` (embeds `str::starts_with` for string
patterns). -/
def strHasPre (p s : String) : Bool := p.data.isPrefixOf s.data

/-- Structural split on newline characters. -/
def splitOnNl : List Char → List (List Char)
  | [] => [[]]
  | c :: cs =>
    if c = '\n' then [] :: splitOnNl cs
    else
      match splitOnNl cs with
      | l :: ls => (c :: l) :: ls
      | [] => [[c]]

/-- Drop one trailing carriage return. -/
def stripCr (l : List Char) : List Char :=
  match l.getLast? with
  | some c => if c = '\r' then l.dropLast else l
  | none => l

/-- Embeds `str::lines`: split on newline, dropping one trailing carriage
return per line; like the Rust iterator, a trailing newline does not
produce a final empty line. -/
def linesOf (s : String) : List String :=
  let pieces := (splitOnNl s.data).map stripCr
  let pieces :=
    match pieces.getLast? with
    | some l => if l = [] then pieces.dropLast else pieces
    | none => pieces
  pieces.map List.asString

instance instDecEqExcept {ε α : Type} [DecidableEq ε] [DecidableEq α] :
    DecidableEq (Except ε α)
  | .error e, .error f =>
    if h : e = f then .isTrue (by rw [h])
    else .isFalse fun hc => h (by injection hc)
  | .error _, .ok _ => .isFalse fun hc => Except.noConfusion hc
  | .ok _, .error _ => .isFalse fun hc => Except.noConfusion hc
  | .ok a, .ok b =>
    if h : a = b then .isTrue (by rw [h])
    else .isFalse fun hc => h (by injection hc)

/-! ## SRCINFO parser (src/aur.rs:373-507)

The Rust loop body is factored into a line classifier plus a state-update
step; the classifier reproduces the `match key` arms of `parse_srcinfo`
in source order. -/

/-- What a single (trimmed) SRCINFO line does, following the `match key`
arms of `parse_srcinfo`. -/
inductive LineEffect where
  | setPkgbase (v : String)
  | setPkgver (v : String)
  | setPkgrel (v : String)
  | setEpoch (v : String)
  | openPkg (v : String)
  | addDep (cat : DepCat) (v : String)
  | skip
deriving Repr, DecidableEq

/-- Classify one raw line: trim, skip blank and `#` lines, split on the
first `=`, trim key and value, then dispatch on the key exactly as the
Rust `match` does (including the `depends_`/`makedepends_`/`checkdepends_`
architecture-suffix arms). -/
def classifyLine (line : String) : LineEffect :=
  let t := asciiTrim line
  if t.data = [] then .skip
  else if t.data.head? = some '#' then .skip
  else
    match splitOnceAux '=' t.data with
    | none => .skip
    | some (k, v) =>
      let key := asciiTrim ⟨k⟩
      let value := asciiTrim ⟨v⟩
      if key = "pkgbase" then .setPkgbase value
      else if key = "pkgver" then .setPkgver value
      else if key = "pkgrel" then .setPkgrel value
      else if key = "epoch" then .setEpoch value
      else if key = "pkgname" then .openPkg value
      else if key = "depends" ∨ strHasPre "depends_" key then .addDep .dep value
      else if key = "makedepends" ∨ strHasPre "makedepends_" key then
        .addDep .makedep value
      else if key = "checkdepends" ∨ strHasPre "checkdepends_" key then
        .addDep .checkdep value
      else .skip

/-- Parser state: the local variables of `parse_srcinfo`.  `pkgFields` is
the `HashMap<String, DepFields>` as an association list with unique keys. -/
structure ParseState where
  pkgbase : Option String := none
  pkgver : Option String := none
  pkgrel : Option String := none
  epoch : Option String := none
  base : DepFields := {}
  pkgFields : List (String × DepFields) := []
  pkgNames : List String := []
  current : Option String := none
deriving Repr

/-- The default (all-empty) `DepFields`. -/
def DepFields.empty : DepFields := { depends := [], makedepends := [], checkdepends := [] }

/-- `HashMap::entry(k).or_default()`: insert a default entry if absent. -/
def entryOrDefault (m : List (String × DepFields)) (k : String) :
    List (String × DepFields) :=
  if (m.lookup k).isSome then m else m ++ [(k, DepFields.empty)]

/-- Apply `f` to the entry for `k` (all occurrences; keys are unique by
construction). -/
def modifyEntry (m : List (String × DepFields)) (k : String)
    (f : DepFields → DepFields) : List (String × DepFields) :=
  m.map fun kv => if kv.1 = k then (kv.1, f kv.2) else kv

/-- `pkg_fields.entry(pkg).or_default().<cat>.push(v)`. -/
def pushDep (m : List (String × DepFields)) (k : String) (cat : DepCat)
    (v : String) : List (String × DepFields) :=
  modifyEntry (entryOrDefault m k) k (fun f => f.push cat v)

/-- One iteration of the `for line in contents.lines()` loop of
`parse_srcinfo`. -/
def stepLine (st : ParseState) (line : String) : ParseState :=
  match classifyLine line with
  | .setPkgbase v => { st with pkgbase := some v, current := none }
  | .setPkgver v => { st with pkgver := some v }
  | .setPkgrel v => { st with pkgrel := some v }
  | .setEpoch v => if v = "" then st else { st with epoch := some v }
  | .openPkg v =>
    { st with
      current := some v
      pkgFields := entryOrDefault st.pkgFields v
      pkgNames := st.pkgNames ++ [v] }
  | .addDep cat v =>
    match st.current with
    | some pkg => { st with pkgFields := pushDep st.pkgFields pkg cat v }
    | none => { st with base := st.base.push cat v }
  | .skip => st

def scanLines (contents : String) : ParseState :=
  (linesOf contents).foldl stepLine {}

/-- The errors `parse_srcinfo` can produce (src/aur.rs:454-456); all are
missing-field errors. -/
inductive SrcinfoErr where
  | missingPkgbase
  | missingPkgver (pkgbase : String)
  | missingPkgrel (pkgbase : String)
deriving Repr, DecidableEq

/-- Embeds `format_version` (src/aur.rs:502-507). -/
def format_version (epoch : Option String) (pkgver pkgrel : String) : String :=
  match epoch with
  | some e =>
    if e ≠ "" ∧ e ≠ "0" then e ++ ":" ++ pkgver ++ "-" ++ pkgrel
    else pkgver ++ "-" ++ pkgrel
  | none => pkgver ++ "-" ++ pkgrel

/-- Embeds `merge_lists` (src/aur.rs:487-492). -/
def merge_lists (a b : List String) : List String := a ++ b

/-- Embeds `merge_fields` (src/aur.rs:479-485). -/
def merge_fields (base specific : DepFields) : DepFields :=
  { depends := merge_lists base.depends specific.depends
    makedepends := merge_lists base.makedepends specific.makedepends
    checkdepends := merge_lists base.checkdepends specific.checkdepends }

/-- Embeds `vec_to_option` (src/aur.rs:494-500). -/
def vec_to_option (v : List String) : Option (List String) :=
  if v = [] then none else some v

/-- `HashMap::remove(k)` on the association list (first occurrence;
keys are unique by construction). -/
def removeEntry (m : List (String × DepFields)) (k : String) :
    List (String × DepFields) :=
  m.eraseP (fun kv => kv.1 == k)

/-- The record built for one output name in the final loop of
`parse_srcinfo` (src/aur.rs:463-475). -/
def mkRecord (pb version : String) (base : DepFields) (n : String)
    (specific : DepFields) : AurInfo :=
  let merged := merge_fields base specific
  { name := n
    pkgbase := pb
    version := version
    depends := vec_to_option merged.depends
    makedepends := vec_to_option merged.makedepends
    checkdepends := vec_to_option merged.checkdepends }

/-- The final loop of `parse_srcinfo`: for each recorded output name,
`pkg_fields.remove(&name).unwrap_or_default()` then merge and push. -/
def buildRecords (pb version : String) (base : DepFields) :
    List String → List (String × DepFields) → List AurInfo
  | [], _ => []
  | n :: rest, m =>
    mkRecord pb version base n ((m.lookup n).getD DepFields.empty) ::
      buildRecords pb version base rest (removeEntry m n)

/-- Embeds `parse_srcinfo` (src/aur.rs:373-477). -/
def parse_srcinfo (contents : String) : Except SrcinfoErr (List AurInfo) :=
  let st := scanLines contents
  match st.pkgbase with
  | none => .error .missingPkgbase
  | some pb =>
    match st.pkgver with
    | none => .error (.missingPkgver pb)
    | some pv =>
      match st.pkgrel with
      | none => .error (.missingPkgrel pb)
      | some pr =>
        let names := if st.pkgNames = [] then [pb] else st.pkgNames
        let fields :=
          if st.pkgNames = [] then entryOrDefault st.pkgFields pb
          else st.pkgFields
        .ok (buildRecords pb (format_version st.epoch pv pr) st.base names fields)

/-! ## Claim-side scans

Independent single-purpose scans over the same classified lines.  They
express, directly from the specification text, what "the base-level list",
"the section-specific list", the recorded output names and the final
scalar fields of a SRCINFO text are.  The theorems below relate
`parse_srcinfo` to these scans. -/

/-- The "current sub-package" context after processing a list of lines,
starting from context `cur`. -/
def currentPartial (cur : Option String) : List String → Option String
  | [] => cur
  | line :: rest =>
    match classifyLine line with
    | .setPkgbase _ => currentPartial none rest
    | .openPkg v => currentPartial (some v) rest
    | _ => currentPartial cur rest

/-- Category-`cat` entries appearing while no sub-package context is open,
starting from context `cur`. -/
def basePartial (cat : DepCat) (cur : Option String) : List String → List String
  | [] => []
  | line :: rest =>
    match classifyLine line with
    | .setPkgbase _ => basePartial cat none rest
    | .openPkg v => basePartial cat (some v) rest
    | .addDep c v =>
      (if cur = none ∧ c = cat then [v] else []) ++ basePartial cat cur rest
    | _ => basePartial cat cur rest

/-- Category-`cat` entries appearing while the sub-package context is
`name`, starting from context `cur`. -/
def sectionPartial (name : String) (cat : DepCat) (cur : Option String) :
    List String → List String
  | [] => []
  | line :: rest =>
    match classifyLine line with
    | .setPkgbase _ => sectionPartial name cat none rest
    | .openPkg v => sectionPartial name cat (some v) rest
    | .addDep c v =>
      (if cur = some name ∧ c = cat then [v] else []) ++
        sectionPartial name cat cur rest
    | _ => sectionPartial name cat cur rest

/-- The `pkgname` values of a line list, in order of appearance. -/
def namesPartial : List String → List String
  | [] => []
  | line :: rest =>
    match classifyLine line with
    | .openPkg v => v :: namesPartial rest
    | _ => namesPartial rest

/-- The last value a line list assigns through `sel` (last write wins). -/
def lastScalar (sel : LineEffect → Option String) : List String → Option String
  | [] => none
  | line :: rest =>
    match lastScalar sel rest with
    | some w => some w
    | none => sel (classifyLine line)

def selPkgbase : LineEffect → Option String
  | .setPkgbase v => some v
  | _ => none

def selPkgver : LineEffect → Option String
  | .setPkgver v => some v
  | _ => none

def selPkgrel : LineEffect → Option String
  | .setPkgrel v => some v
  | _ => none

/-- An `epoch` line with an empty value is ignored (treated as absent). -/
def selEpoch : LineEffect → Option String
  | .setEpoch v => if v = "" then none else some v
  | _ => none

/-- The base-level dependency list of category `cat` of a SRCINFO text. -/
def baseDeps (contents : String) (cat : DepCat) : List String :=
  basePartial cat none (linesOf contents)

/-- The section-specific dependency list of category `cat` of sub-package
`name` of a SRCINFO text. -/
def sectionDeps (contents : String) (name : String) (cat : DepCat) :
    List String :=
  sectionPartial name cat none (linesOf contents)

/-- The `pkgname` values of a SRCINFO text, in order. -/
def pkgnamesOf (contents : String) : List String :=
  namesPartial (linesOf contents)

def pkgbaseOf (contents : String) : Option String :=
  lastScalar selPkgbase (linesOf contents)

def pkgverOf (contents : String) : Option String :=
  lastScalar selPkgver (linesOf contents)

def pkgrelOf (contents : String) : Option String :=
  lastScalar selPkgrel (linesOf contents)

/-- The effective epoch of a SRCINFO text: the last non-empty `epoch`
value, if any. -/
def epochOf (contents : String) : Option String :=
  lastScalar selEpoch (linesOf contents)

/-- Some line of the text sets `pkgbase`. -/
def setsPkgbase (contents : String) : Bool :=
  (linesOf contents).any fun l =>
    match classifyLine l with
    | .setPkgbase _ => true
    | _ => false

/-- Some line of the text sets `pkgver`. -/
def setsPkgver (contents : String) : Bool :=
  (linesOf contents).any fun l =>
    match classifyLine l with
    | .setPkgver _ => true
    | _ => false

/-- Some line of the text sets `pkgrel`. -/
def setsPkgrel (contents : String) : Bool :=
  (linesOf contents).any fun l =>
    match classifyLine l with
    | .setPkgrel _ => true
    | _ => false

/-! ## Association-list and field lemmas -/

theorem lookup_cons (a : String) (p : String × DepFields)
    (l : List (String × DepFields)) :
    (p :: l).lookup a = if a = p.1 then some p.2 else l.lookup a := by
  cases p with
  | mk k v =>
    by_cases h : a = k
    · simp [List.lookup, h]
    · have hb : (a == k) = false := by simp [h]
      simp [List.lookup, h, hb]

theorem lookup_append_df (m m2 : List (String × DepFields)) (n : String) :
    (m ++ m2).lookup n = ((m.lookup n).orElse fun _ => m2.lookup n) := by
  induction m with
  | nil => simp
  | cons kv rest ih =>
    rw [List.cons_append, lookup_cons, lookup_cons]
    by_cases h : n = kv.1
    · simp [h, Option.orElse]
    · simp [h, ih]

theorem lookup_entryOrDefault (m : List (String × DepFields)) (k : String) :
    (entryOrDefault m k).lookup k = some ((m.lookup k).getD .empty) := by
  unfold entryOrDefault
  cases hm : m.lookup k with
  | some v => simp [hm]
  | none =>
    simp only [hm, Option.isSome_none, Bool.false_eq_true, if_false]
    rw [lookup_append_df]
    simp [hm, lookup_cons, Option.orElse]

theorem lookup_entryOrDefault_ne (m : List (String × DepFields)) (k n : String)
    (h : n ≠ k) : (entryOrDefault m k).lookup n = m.lookup n := by
  unfold entryOrDefault
  cases hm : m.lookup k with
  | some v => simp [hm]
  | none =>
    simp only [hm, Option.isSome_none, Bool.false_eq_true, if_false]
    rw [lookup_append_df]
    cases hn : m.lookup n with
    | some v => simp [Option.orElse]
    | none => simp [Option.orElse, lookup_cons, h]

theorem lookup_entryOrDefault_getD (m : List (String × DepFields)) (k n : String) :
    ((entryOrDefault m k).lookup n).getD .empty = (m.lookup n).getD .empty := by
  by_cases h : n = k
  · subst h
    rw [lookup_entryOrDefault]
    rfl
  · rw [lookup_entryOrDefault_ne m k n h]

theorem lookup_modifyEntry (m : List (String × DepFields)) (k n : String)
    (f : DepFields → DepFields) :
    (modifyEntry m k f).lookup n =
      if n = k then (m.lookup k).map f else m.lookup n := by
  induction m with
  | nil => simp [modifyEntry]
  | cons kv rest ih =>
    simp only [modifyEntry, List.map_cons] at ih ⊢
    by_cases hk : kv.1 = k
    · by_cases hn : n = kv.1
      · simp [if_pos hk, lookup_cons, hn, hk, hn.trans hk]
      · have hnk : ¬ n = k := fun he => hn (he.trans hk.symm)
        simp [if_pos hk, lookup_cons, hn, hnk, ih]
    · by_cases hn : n = kv.1
      · have hnk : ¬ n = k := fun he => hk (hn.symm.trans he)
        have hkn : ¬ k = kv.1 := fun he => hk he.symm
        simp [if_neg hk, lookup_cons, hn, hnk, hkn, ih]
      · have hkn : ¬ k = kv.1 := fun he => hk he.symm
        simp [if_neg hk, lookup_cons, hn, hkn, ih]

theorem lookup_pushDep_getD (m : List (String × DepFields)) (k n : String)
    (cat : DepCat) (v : String) :
    ((pushDep m k cat v).lookup n).getD .empty =
      if n = k then ((m.lookup n).getD .empty).push cat v
      else (m.lookup n).getD .empty := by
  unfold pushDep
  rw [lookup_modifyEntry]
  by_cases h : n = k
  · subst h
    rw [if_pos rfl, if_pos rfl, lookup_entryOrDefault]
    rfl
  · rw [if_neg h, if_neg h, lookup_entryOrDefault_ne m k n h]

theorem lookup_removeEntry_ne (m : List (String × DepFields)) (k n : String)
    (h : n ≠ k) : (removeEntry m k).lookup n = m.lookup n := by
  induction m with
  | nil => simp [removeEntry]
  | cons kv rest ih =>
    simp only [removeEntry, List.eraseP_cons] at ih ⊢
    by_cases hk : kv.1 = k
    · have hb : (kv.1 == k) = true := by simp [hk]
      have hn : ¬ n = kv.1 := by
        intro he
        exact h (he.trans hk)
      simp [hb, lookup_cons, hn]
    · have hb : (kv.1 == k) = false := by simp [hk]
      by_cases hn : n = kv.1
      · simp [hb, lookup_cons, hn]
      · simp [hb, lookup_cons, hn, ih]

theorem DepFields.get_push (f : DepFields) (c cat : DepCat) (v : String) :
    (f.push c v).get cat = f.get cat ++ (if c = cat then [v] else []) := by
  cases c <;> cases cat <;> simp [DepFields.push, DepFields.get]

theorem vec_to_option_getD (l : List String) :
    (vec_to_option l).getD [] = l := by
  unfold vec_to_option
  by_cases h : l = [] <;> simp [h]

/-! ## The parser state as a function of the claim-side scans -/

theorem foldl_current (lines : List String) : ∀ st : ParseState,
    (lines.foldl stepLine st).current = currentPartial st.current lines := by
  induction lines with
  | nil =>
    intro st
    simp [currentPartial]
  | cons line rest ih =>
    intro st
    rw [List.foldl_cons, ih]
    cases hc : classifyLine line with
    | setPkgbase v =>
      simp only [currentPartial, hc]
      simp [stepLine, hc]
    | setPkgver v =>
      simp only [currentPartial, hc]
      simp [stepLine, hc]
    | setPkgrel v =>
      simp only [currentPartial, hc]
      simp [stepLine, hc]
    | setEpoch v =>
      simp only [currentPartial, hc]
      by_cases hv : v = "" <;> simp [stepLine, hc, hv]
    | openPkg v =>
      simp only [currentPartial, hc]
      simp [stepLine, hc]
    | addDep cat v =>
      simp only [currentPartial, hc]
      cases hcur : st.current <;> simp [stepLine, hc, hcur]
    | skip =>
      simp only [currentPartial, hc]
      simp [stepLine, hc]

theorem foldl_base (lines : List String) : ∀ (st : ParseState) (cat : DepCat),
    (lines.foldl stepLine st).base.get cat =
      st.base.get cat ++ basePartial cat st.current lines := by
  induction lines with
  | nil =>
    intro st cat
    simp [basePartial]
  | cons line rest ih =>
    intro st cat
    rw [List.foldl_cons, ih]
    cases hc : classifyLine line with
    | setPkgbase v =>
      simp only [basePartial, hc]
      simp [stepLine, hc]
    | setPkgver v =>
      simp only [basePartial, hc]
      simp [stepLine, hc]
    | setPkgrel v =>
      simp only [basePartial, hc]
      simp [stepLine, hc]
    | setEpoch v =>
      simp only [basePartial, hc]
      by_cases hv : v = "" <;> simp [stepLine, hc, hv]
    | openPkg v =>
      simp only [basePartial, hc]
      simp [stepLine, hc]
    | addDep c v =>
      simp only [basePartial, hc]
      cases hcur : st.current with
      | some pkg => simp [stepLine, hc, hcur]
      | none =>
        by_cases hcat : c = cat
        · simp [stepLine, hc, hcur, hcat, DepFields.get_push]
        · simp [stepLine, hc, hcur, hcat, DepFields.get_push]
    | skip =>
      simp only [basePartial, hc]
      simp [stepLine, hc]

theorem foldl_names (lines : List String) : ∀ st : ParseState,
    (lines.foldl stepLine st).pkgNames = st.pkgNames ++ namesPartial lines := by
  induction lines with
  | nil =>
    intro st
    simp [namesPartial]
  | cons line rest ih =>
    intro st
    rw [List.foldl_cons, ih]
    cases hc : classifyLine line with
    | setPkgbase v =>
      simp only [namesPartial, hc]
      simp [stepLine, hc]
    | setPkgver v =>
      simp only [namesPartial, hc]
      simp [stepLine, hc]
    | setPkgrel v =>
      simp only [namesPartial, hc]
      simp [stepLine, hc]
    | setEpoch v =>
      simp only [namesPartial, hc]
      by_cases hv : v = "" <;> simp [stepLine, hc, hv]
    | openPkg v =>
      simp only [namesPartial, hc]
      simp [stepLine, hc]
    | addDep cat v =>
      simp only [namesPartial, hc]
      cases hcur : st.current <;> simp [stepLine, hc, hcur]
    | skip =>
      simp only [namesPartial, hc]
      simp [stepLine, hc]

theorem foldl_pkgFields (lines : List String) :
    ∀ (st : ParseState) (n : String) (cat : DepCat),
    (((lines.foldl stepLine st).pkgFields.lookup n).getD .empty).get cat =
      ((st.pkgFields.lookup n).getD .empty).get cat ++
        sectionPartial n cat st.current lines := by
  induction lines with
  | nil =>
    intro st n cat
    simp [sectionPartial]
  | cons line rest ih =>
    intro st n cat
    rw [List.foldl_cons, ih]
    cases hc : classifyLine line with
    | setPkgbase v =>
      simp only [sectionPartial, hc]
      simp [stepLine, hc]
    | setPkgver v =>
      simp only [sectionPartial, hc]
      simp [stepLine, hc]
    | setPkgrel v =>
      simp only [sectionPartial, hc]
      simp [stepLine, hc]
    | setEpoch v =>
      simp only [sectionPartial, hc]
      by_cases hv : v = "" <;> simp [stepLine, hc, hv]
    | openPkg v =>
      simp only [sectionPartial, hc]
      simp [stepLine, hc, lookup_entryOrDefault_getD]
    | addDep c v =>
      simp only [sectionPartial, hc]
      cases hcur : st.current with
      | none => simp [stepLine, hc, hcur]
      | some pkg =>
        by_cases hn : n = pkg
        · subst hn
          by_cases hcat : c = cat <;>
            simp [stepLine, hc, hcur, lookup_pushDep_getD, DepFields.get_push,
              hcat]
        · have hpn : ¬ pkg = n := fun he => hn he.symm
          simp [stepLine, hc, hcur, lookup_pushDep_getD, hn, hpn]
    | skip =>
      simp only [sectionPartial, hc]
      simp [stepLine, hc]

/-- Generic last-write-wins scalar clause: if one `ParseState` field is
updated by `stepLine` exactly according to `sel`, its final value is the
last value `sel` extracts, defaulting to the initial value. -/
theorem foldl_scalar (proj : ParseState → Option String)
    (sel : LineEffect → Option String)
    (compat : ∀ (st : ParseState) (line : String),
      proj (stepLine st line) =
        match sel (classifyLine line) with
        | some v => some v
        | none => proj st)
    (lines : List String) : ∀ st : ParseState,
    proj (lines.foldl stepLine st) =
      match lastScalar sel lines with
      | some w => some w
      | none => proj st := by
  induction lines with
  | nil =>
    intro st
    simp [lastScalar]
  | cons line rest ih =>
    intro st
    rw [List.foldl_cons, ih, compat st line]
    simp only [lastScalar]
    cases lastScalar sel rest with
    | some w => simp
    | none => cases sel (classifyLine line) <;> simp

theorem stepLine_pkgbase (st : ParseState) (line : String) :
    (stepLine st line).pkgbase =
      match selPkgbase (classifyLine line) with
      | some v => some v
      | none => st.pkgbase := by
  cases hc : classifyLine line with
  | setPkgbase v => simp [stepLine, hc, selPkgbase]
  | setPkgver v => simp [stepLine, hc, selPkgbase]
  | setPkgrel v => simp [stepLine, hc, selPkgbase]
  | setEpoch v =>
    by_cases hv : v = "" <;> simp [stepLine, hc, selPkgbase, hv]
  | openPkg v => simp [stepLine, hc, selPkgbase]
  | addDep cat v =>
    cases hcur : st.current <;> simp [stepLine, hc, selPkgbase, hcur]
  | skip => simp [stepLine, hc, selPkgbase]

theorem stepLine_pkgver (st : ParseState) (line : String) :
    (stepLine st line).pkgver =
      match selPkgver (classifyLine line) with
      | some v => some v
      | none => st.pkgver := by
  cases hc : classifyLine line with
  | setPkgbase v => simp [stepLine, hc, selPkgver]
  | setPkgver v => simp [stepLine, hc, selPkgver]
  | setPkgrel v => simp [stepLine, hc, selPkgver]
  | setEpoch v =>
    by_cases hv : v = "" <;> simp [stepLine, hc, selPkgver, hv]
  | openPkg v => simp [stepLine, hc, selPkgver]
  | addDep cat v =>
    cases hcur : st.current <;> simp [stepLine, hc, selPkgver, hcur]
  | skip => simp [stepLine, hc, selPkgver]

theorem stepLine_pkgrel (st : ParseState) (line : String) :
    (stepLine st line).pkgrel =
      match selPkgrel (classifyLine line) with
      | some v => some v
      | none => st.pkgrel := by
  cases hc : classifyLine line with
  | setPkgbase v => simp [stepLine, hc, selPkgrel]
  | setPkgver v => simp [stepLine, hc, selPkgrel]
  | setPkgrel v => simp [stepLine, hc, selPkgrel]
  | setEpoch v =>
    by_cases hv : v = "" <;> simp [stepLine, hc, selPkgrel, hv]
  | openPkg v => simp [stepLine, hc, selPkgrel]
  | addDep cat v =>
    cases hcur : st.current <;> simp [stepLine, hc, selPkgrel, hcur]
  | skip => simp [stepLine, hc, selPkgrel]

theorem stepLine_epoch (st : ParseState) (line : String) :
    (stepLine st line).epoch =
      match selEpoch (classifyLine line) with
      | some v => some v
      | none => st.epoch := by
  cases hc : classifyLine line with
  | setPkgbase v => simp [stepLine, hc, selEpoch]
  | setPkgver v => simp [stepLine, hc, selEpoch]
  | setPkgrel v => simp [stepLine, hc, selEpoch]
  | setEpoch v =>
    by_cases hv : v = "" <;> simp [stepLine, hc, selEpoch, hv]
  | openPkg v => simp [stepLine, hc, selEpoch]
  | addDep cat v =>
    cases hcur : st.current <;> simp [stepLine, hc, selEpoch, hcur]
  | skip => simp [stepLine, hc, selEpoch]

theorem scanLines_current (contents : String) :
    (scanLines contents).current = currentPartial none (linesOf contents) := by
  unfold scanLines
  rw [foldl_current]

theorem scanLines_base (contents : String) (cat : DepCat) :
    (scanLines contents).base.get cat = baseDeps contents cat := by
  unfold scanLines baseDeps
  rw [foldl_base]
  cases cat <;> simp [DepFields.get, DepFields.empty]

theorem scanLines_names (contents : String) :
    (scanLines contents).pkgNames = pkgnamesOf contents := by
  unfold scanLines pkgnamesOf
  rw [foldl_names]
  simp

theorem scanLines_pkgFields (contents : String) (n : String) (cat : DepCat) :
    (((scanLines contents).pkgFields.lookup n).getD .empty).get cat =
      sectionDeps contents n cat := by
  unfold scanLines sectionDeps
  rw [foldl_pkgFields]
  cases cat <;> simp [DepFields.get, DepFields.empty]

theorem scanLines_pkgbase (contents : String) :
    (scanLines contents).pkgbase = pkgbaseOf contents := by
  unfold scanLines pkgbaseOf
  rw [foldl_scalar (fun st => st.pkgbase) selPkgbase stepLine_pkgbase]
  cases lastScalar selPkgbase (linesOf contents) <;> simp

theorem scanLines_pkgver (contents : String) :
    (scanLines contents).pkgver = pkgverOf contents := by
  unfold scanLines pkgverOf
  rw [foldl_scalar (fun st => st.pkgver) selPkgver stepLine_pkgver]
  cases lastScalar selPkgver (linesOf contents) <;> simp

theorem scanLines_pkgrel (contents : String) :
    (scanLines contents).pkgrel = pkgrelOf contents := by
  unfold scanLines pkgrelOf
  rw [foldl_scalar (fun st => st.pkgrel) selPkgrel stepLine_pkgrel]
  cases lastScalar selPkgrel (linesOf contents) <;> simp

theorem scanLines_epoch (contents : String) :
    (scanLines contents).epoch = epochOf contents := by
  unfold scanLines epochOf
  rw [foldl_scalar (fun st => st.epoch) selEpoch stepLine_epoch]
  cases lastScalar selEpoch (linesOf contents) <;> simp

/-! ## Parser correctness: records versus the claim-side scans -/

theorem buildRecords_mem (pb version : String) (base : DepFields) :
    ∀ (names : List String) (m : List (String × DepFields)), names.Nodup →
    ∀ info ∈ buildRecords pb version base names m,
    ∃ n ∈ names,
      info = mkRecord pb version base n ((m.lookup n).getD .empty) := by
  intro names
  induction names with
  | nil =>
    intro m _ info h
    simp [buildRecords] at h
  | cons n rest ih =>
    intro m hnd info hmem
    simp only [buildRecords, List.mem_cons] at hmem
    rcases hmem with rfl | hmem
    · exact ⟨n, List.mem_cons_self n rest, rfl⟩
    · obtain ⟨hn, hrest⟩ := List.nodup_cons.mp hnd
      obtain ⟨k, hk, hinfo⟩ := ih (removeEntry m n) hrest info hmem
      refine ⟨k, List.mem_cons_of_mem _ hk, ?_⟩
      rw [hinfo, lookup_removeEntry_ne]
      intro he
      exact hn (he ▸ hk)

theorem buildRecords_version (pb version : String) (base : DepFields) :
    ∀ (names : List String) (m : List (String × DepFields)),
    ∀ info ∈ buildRecords pb version base names m, info.version = version := by
  intro names
  induction names with
  | nil =>
    intro m info h
    simp [buildRecords] at h
  | cons n rest ih =>
    intro m info hmem
    simp only [buildRecords, List.mem_cons] at hmem
    rcases hmem with rfl | hmem
    · rfl
    · exact ih (removeEntry m n) info hmem

theorem epochOf_ne_empty (lines : List String) (e : String)
    (h : lastScalar selEpoch lines = some e) : e ≠ "" := by
  induction lines with
  | nil => simp [lastScalar] at h
  | cons line rest ih =>
    simp only [lastScalar] at h
    cases hr : lastScalar selEpoch rest with
    | some w =>
      rw [hr] at h
      exact ih (hr.trans (by injection h with h; rw [h]))
    | none =>
      rw [hr] at h
      cases hc : classifyLine line with
      | setEpoch v =>
        rw [hc] at h
        simp only [selEpoch] at h
        by_cases hv : v = ""
        · simp [hv] at h
        · simp only [hv, if_false] at h
          injection h with h
          rw [← h]
          exact hv
      | setPkgbase v => rw [hc] at h; simp [selEpoch] at h
      | setPkgver v => rw [hc] at h; simp [selEpoch] at h
      | setPkgrel v => rw [hc] at h; simp [selEpoch] at h
      | openPkg v => rw [hc] at h; simp [selEpoch] at h
      | addDep c v => rw [hc] at h; simp [selEpoch] at h
      | skip => rw [hc] at h; simp [selEpoch] at h

theorem lastScalar_isSome (sel : LineEffect → Option String)
    (lines : List String) :
    (lastScalar sel lines).isSome =
      lines.any fun l => (sel (classifyLine l)).isSome := by
  induction lines with
  | nil => simp [lastScalar]
  | cons line rest ih =>
    simp only [lastScalar, List.any_cons]
    cases hr : lastScalar sel rest with
    | some w =>
      have : (rest.any fun l => (sel (classifyLine l)).isSome) = true := by
        rw [← ih, hr]
        rfl
      simp [this]
    | none =>
      have : (rest.any fun l => (sel (classifyLine l)).isSome) = false := by
        rw [← ih, hr]
        rfl
      cases sel (classifyLine line) <;> simp [this]

/-- The record list produced by a successful parse, described through the
state scans: this packages the `match` structure of `parse_srcinfo`. -/
theorem parse_ok_shape (contents : String) (infos : List AurInfo)
    (hok : parse_srcinfo contents = .ok infos) :
    ∃ pb pv pr, (scanLines contents).pkgbase = some pb ∧
      (scanLines contents).pkgver = some pv ∧
      (scanLines contents).pkgrel = some pr ∧
      infos = buildRecords pb (format_version (scanLines contents).epoch pv pr)
        (scanLines contents).base
        (if (scanLines contents).pkgNames = [] then [pb]
         else (scanLines contents).pkgNames)
        (if (scanLines contents).pkgNames = [] then
           entryOrDefault (scanLines contents).pkgFields pb
         else (scanLines contents).pkgFields) := by
  simp only [parse_srcinfo] at hok
  cases hpb : (scanLines contents).pkgbase with
  | none =>
    rw [hpb] at hok
    exact absurd hok (by simp)
  | some pb =>
    rw [hpb] at hok
    cases hpv : (scanLines contents).pkgver with
    | none =>
      rw [hpv] at hok
      exact absurd hok (by simp)
    | some pv =>
      rw [hpv] at hok
      cases hpr : (scanLines contents).pkgrel with
      | none =>
        rw [hpr] at hok
        exact absurd hok (by simp)
      | some pr =>
        rw [hpr] at hok
        simp only [Except.ok.injEq] at hok
        exact ⟨pb, pv, pr, rfl, rfl, rfl, hok.symm⟩

theorem mkRecord_depends (pb v : String) (base sp : DepFields) (n : String) :
    (mkRecord pb v base n sp).depends.getD [] =
      base.get .dep ++ sp.get .dep := by
  simp [mkRecord, vec_to_option_getD, merge_fields, merge_lists, DepFields.get]

theorem mkRecord_makedepends (pb v : String) (base sp : DepFields) (n : String) :
    (mkRecord pb v base n sp).makedepends.getD [] =
      base.get .makedep ++ sp.get .makedep := by
  simp [mkRecord, vec_to_option_getD, merge_fields, merge_lists, DepFields.get]

theorem mkRecord_checkdepends (pb v : String) (base sp : DepFields) (n : String) :
    (mkRecord pb v base n sp).checkdepends.getD [] =
      base.get .checkdep ++ sp.get .checkdep := by
  simp [mkRecord, vec_to_option_getD, merge_fields, merge_lists, DepFields.get]

theorem mkRecord_name (pb v : String) (base sp : DepFields) (n : String) :
    (mkRecord pb v base n sp).name = n := rfl

/-- C5 (amended).  For every successfully parsed SRCINFO text whose
`pkgname` values are pairwise distinct, each output record's final
`depends`, `makedepends` and `checkdepends` lists equal the base-level
list concatenated before that sub-package's section-specific list,
independently per category; a sub-package with no section entries hence
gets exactly the base-level list.  (Without the distinctness hypothesis
the property fails, see the counterexample: a repeated `pkgname` value
yields a second record whose section entries were already consumed.) -/
theorem dep_merge (contents : String) (infos : List AurInfo)
    (info : AurInfo) (hok : parse_srcinfo contents = .ok infos)
    (hnd : (pkgnamesOf contents).Nodup) (hmem : info ∈ infos) :
    info.depends.getD [] =
        baseDeps contents .dep ++ sectionDeps contents info.name .dep ∧
      info.makedepends.getD [] =
        baseDeps contents .makedep ++ sectionDeps contents info.name .makedep ∧
      info.checkdepends.getD [] =
        baseDeps contents .checkdep ++ sectionDeps contents info.name .checkdep := by
  obtain ⟨pb, pv, pr, hpb, hpv, hpr, hshape⟩ := parse_ok_shape contents infos hok
  subst hshape
  have hkey : ∃ n, info = mkRecord pb
      (format_version (scanLines contents).epoch pv pr) (scanLines contents).base
      n (((scanLines contents).pkgFields.lookup n).getD .empty) := by
    by_cases hempty : (scanLines contents).pkgNames = []
    · rw [if_pos hempty, if_pos hempty] at hmem
      obtain ⟨n, hn, hinfo⟩ :=
        buildRecords_mem _ _ _ _ _ (List.nodup_singleton pb) info hmem
      have hnpb : n = pb := by simpa using hn
      subst hnpb
      refine ⟨n, ?_⟩
      rw [hinfo]
      congr 1
      exact lookup_entryOrDefault_getD _ _ _
    · rw [if_neg hempty, if_neg hempty] at hmem
      have hnd2 : (scanLines contents).pkgNames.Nodup := by
        rw [scanLines_names]
        exact hnd
      obtain ⟨n, _, hinfo⟩ := buildRecords_mem _ _ _ _ _ hnd2 info hmem
      exact ⟨n, hinfo⟩
  obtain ⟨n, hinfo⟩ := hkey
  subst hinfo
  rw [mkRecord_name]
  refine ⟨?_, ?_, ?_⟩
  · rw [mkRecord_depends, scanLines_base, scanLines_pkgFields]
  · rw [mkRecord_makedepends, scanLines_base, scanLines_pkgFields]
  · rw [mkRecord_checkdepends, scanLines_base, scanLines_pkgFields]

/-- Witness for C5: the amended theorem applied to the concrete
two-sub-package text of the specification example, giving
`Y.depends = [A, B]`. -/
theorem dep_merge_witness :
    (parse_srcinfo "pkgbase=X\npkgver=1\npkgrel=1\ndepends=A\npkgname=Y\ndepends=B\npkgname=Z" =
      .ok
        [{ name := "Y", pkgbase := "X", version := "1-1",
           depends := some ["A", "B"], makedepends := none,
           checkdepends := none },
         { name := "Z", pkgbase := "X", version := "1-1",
           depends := some ["A"], makedepends := none,
           checkdepends := none }]) ∧
    ((some ["A", "B"] : Option (List String)).getD []) =
      baseDeps "pkgbase=X\npkgver=1\npkgrel=1\ndepends=A\npkgname=Y\ndepends=B\npkgname=Z" .dep ++
      sectionDeps "pkgbase=X\npkgver=1\npkgrel=1\ndepends=A\npkgname=Y\ndepends=B\npkgname=Z" "Y" .dep := by
  refine ⟨by decide, ?_⟩
  have h := dep_merge
    "pkgbase=X\npkgver=1\npkgrel=1\ndepends=A\npkgname=Y\ndepends=B\npkgname=Z"
    [{ name := "Y", pkgbase := "X", version := "1-1",
       depends := some ["A", "B"], makedepends := none, checkdepends := none },
     { name := "Z", pkgbase := "X", version := "1-1",
       depends := some ["A"], makedepends := none, checkdepends := none }]
    { name := "Y", pkgbase := "X", version := "1-1",
      depends := some ["A", "B"], makedepends := none, checkdepends := none }
    (by decide) (by decide) (by decide)
  exact h.1

/-- C5 counterexample: the claim as stated (for every parsed text, every
record) fails when a `pkgname` value repeats: the second `Y` record gets
only the base-level list `[A]`, not `[A] ++ [B]`. -/
theorem dep_merge_cex :
    (parse_srcinfo "pkgbase=X\npkgver=1\npkgrel=1\ndepends=A\npkgname=Y\ndepends=B\npkgname=Y" =
      .ok
        [{ name := "Y", pkgbase := "X", version := "1-1",
           depends := some ["A", "B"], makedepends := none,
           checkdepends := none },
         { name := "Y", pkgbase := "X", version := "1-1",
           depends := some ["A"], makedepends := none,
           checkdepends := none }]) ∧
    ¬ ((some ["A"] : Option (List String)).getD [] =
      baseDeps "pkgbase=X\npkgver=1\npkgrel=1\ndepends=A\npkgname=Y\ndepends=B\npkgname=Y" .dep ++
      sectionDeps "pkgbase=X\npkgver=1\npkgrel=1\ndepends=A\npkgname=Y\ndepends=B\npkgname=Y" "Y" .dep) := by
  constructor
  · decide
  · decide

/-- C6.  Every record of a successfully parsed SRCINFO text carries the
version `epoch:pkgver-pkgrel` when the effective epoch (the last
`epoch` line with a non-empty value) is non-zero, and `pkgver-pkgrel`
otherwise (epoch absent, empty — an empty value never becomes the
effective epoch — or the string zero). -/
theorem version_assembly (contents : String) (infos : List AurInfo)
    (info : AurInfo) (pv pr : String)
    (hok : parse_srcinfo contents = .ok infos) (hmem : info ∈ infos)
    (hv : pkgverOf contents = some pv) (hr : pkgrelOf contents = some pr) :
    (∀ e, epochOf contents = some e → e ≠ "") ∧
    info.version =
      match epochOf contents with
      | some e =>
        if e ≠ "0" then e ++ ":" ++ pv ++ "-" ++ pr else pv ++ "-" ++ pr
      | none => pv ++ "-" ++ pr := by
  constructor
  · intro e he
    exact epochOf_ne_empty (linesOf contents) e he
  · obtain ⟨pb, pv2, pr2, hpb, hpv, hpr, hshape⟩ := parse_ok_shape contents infos hok
    have hpv2 : pv2 = pv := by
      rw [scanLines_pkgver, hv] at hpv
      injection hpv with h
      exact h.symm
    have hpr2 : pr2 = pr := by
      rw [scanLines_pkgrel, hr] at hpr
      injection hpr with h
      exact h.symm
    subst hpv2
    subst hpr2
    subst hshape
    have hver := buildRecords_version _ _ _ _ _ info hmem
    rw [hver, scanLines_epoch]
    unfold format_version
    cases he : epochOf contents with
    | none => rfl
    | some e =>
      have hne : e ≠ "" := epochOf_ne_empty (linesOf contents) e he
      by_cases hz : e = "0"
      · simp [hz]
      · simp [hne, hz]

/-- Witness for C6: the specification example `epoch=1, pkgver=2.0,
pkgrel=3` yields version `1:2.0-3`. -/
theorem version_assembly_witness :
    (parse_srcinfo "pkgbase=x\npkgver=2.0\npkgrel=3\nepoch=1" =
      .ok [{ name := "x", pkgbase := "x", version := "1:2.0-3",
             depends := none, makedepends := none, checkdepends := none }]) ∧
    "1:2.0-3" =
      match epochOf "pkgbase=x\npkgver=2.0\npkgrel=3\nepoch=1" with
      | some e => if e ≠ "0" then e ++ ":" ++ "2.0" ++ "-" ++ "3"
                  else "2.0" ++ "-" ++ "3"
      | none => "2.0" ++ "-" ++ "3" := by
  refine ⟨by decide, ?_⟩
  have h := version_assembly "pkgbase=x\npkgver=2.0\npkgrel=3\nepoch=1"
    [{ name := "x", pkgbase := "x", version := "1:2.0-3",
       depends := none, makedepends := none, checkdepends := none }]
    { name := "x", pkgbase := "x", version := "1:2.0-3",
      depends := none, makedepends := none, checkdepends := none }
    "2.0" "3" (by decide) (by decide) (by decide) (by decide)
  exact h.2

theorem lastScalar_isSome_iff_sets (contents : String) :
    ((pkgbaseOf contents).isSome = setsPkgbase contents) ∧
      ((pkgverOf contents).isSome = setsPkgver contents) ∧
      ((pkgrelOf contents).isSome = setsPkgrel contents) := by
  refine ⟨?_, ?_, ?_⟩
  · rw [pkgbaseOf, lastScalar_isSome, setsPkgbase]
    congr 1
    funext l
    cases hc : classifyLine l <;> simp [selPkgbase, hc]
  · rw [pkgverOf, lastScalar_isSome, setsPkgver]
    congr 1
    funext l
    cases hc : classifyLine l <;> simp [selPkgver, hc]
  · rw [pkgrelOf, lastScalar_isSome, setsPkgrel]
    congr 1
    funext l
    cases hc : classifyLine l <;> simp [selPkgrel, hc]

/-- C7.  Parsing fails exactly when one of `pkgbase`, `pkgver`, `pkgrel`
is never set, regardless of any other fields; and every parse error is a
missing-field error for one of those three fields. -/
theorem missing_field_error (contents : String) :
    ((∃ e, parse_srcinfo contents = .error e) ↔
      ¬ (setsPkgbase contents ∧ setsPkgver contents ∧ setsPkgrel contents)) ∧
    ∀ e, parse_srcinfo contents = .error e →
      e = .missingPkgbase ∨ (∃ pb, e = .missingPkgver pb) ∨
        ∃ pb, e = .missingPkgrel pb := by
  obtain ⟨hb, hv, hr⟩ := lastScalar_isSome_iff_sets contents
  have key : ∀ e, parse_srcinfo contents = .error e →
      (e = .missingPkgbase ∨ (∃ pb, e = .missingPkgver pb) ∨
        ∃ pb, e = .missingPkgrel pb) := by
    intro e he
    cases e with
    | missingPkgbase => exact Or.inl rfl
    | missingPkgver pb => exact Or.inr (Or.inl ⟨pb, rfl⟩)
    | missingPkgrel pb => exact Or.inr (Or.inr ⟨pb, rfl⟩)
  refine ⟨?_, key⟩
  constructor
  · rintro ⟨e, he⟩ hall
    obtain ⟨hsb, hsv, hsr⟩ := hall
    simp only [parse_srcinfo] at he
    rw [← hb, ← scanLines_pkgbase] at hsb
    obtain ⟨pb, hpb⟩ := Option.isSome_iff_exists.mp hsb
    rw [hpb] at he
    rw [← hv, ← scanLines_pkgver] at hsv
    obtain ⟨pv, hpv⟩ := Option.isSome_iff_exists.mp hsv
    rw [hpv] at he
    rw [← hr, ← scanLines_pkgrel] at hsr
    obtain ⟨pr, hpr⟩ := Option.isSome_iff_exists.mp hsr
    rw [hpr] at he
    exact Except.noConfusion he
  · intro hnall
    simp only [parse_srcinfo]
    cases hpb : (scanLines contents).pkgbase with
    | none => exact ⟨.missingPkgbase, rfl⟩
    | some pb =>
      cases hpv : (scanLines contents).pkgver with
      | none => exact ⟨.missingPkgver pb, rfl⟩
      | some pv =>
        cases hpr : (scanLines contents).pkgrel with
        | none => exact ⟨.missingPkgrel pb, rfl⟩
        | some pr =>
          exfalso
          apply hnall
          refine ⟨?_, ?_, ?_⟩
          · rw [← hb, ← scanLines_pkgbase, hpb]
            rfl
          · rw [← hv, ← scanLines_pkgver, hpv]
            rfl
          · rw [← hr, ← scanLines_pkgrel, hpr]
            rfl

/-- Witness for C7: a text lacking `pkgrel` (with other valid fields)
fails with a missing-field error; the same text with `pkgrel` does not. -/
theorem missing_field_error_witness :
    ((∃ e, parse_srcinfo "pkgbase=x\npkgver=2.0\ndepends=A" = .error e) ∧
      ((SrcinfoErr.missingPkgrel "x") = .missingPkgbase ∨
        (∃ pb, (SrcinfoErr.missingPkgrel "x") = .missingPkgver pb) ∨
        ∃ pb, (SrcinfoErr.missingPkgrel "x") = .missingPkgrel pb)) ∧
    ¬ ∃ e, parse_srcinfo "pkgbase=x\npkgver=2.0\npkgrel=3\ndepends=A" = .error e := by
  refine ⟨⟨?_, ?_⟩, ?_⟩
  · exact (missing_field_error "pkgbase=x\npkgver=2.0\ndepends=A").1.mpr (by decide)
  · exact (missing_field_error "pkgbase=x\npkgver=2.0\ndepends=A").2
      (.missingPkgrel "x") (by decide)
  · intro he
    have := (missing_field_error "pkgbase=x\npkgver=2.0\npkgrel=3\ndepends=A").1.mp he
    exact this (by decide)

/-! ## GitHub mirror base derivation (src/aur.rs:261-286) -/

/-- `str::trim_end_matches('/')`: drop every trailing slash. -/
def trimEndSlashes (l : List Char) : List Char :=
  (l.reverse.dropWhile fun c => c == '/').reverse

/-- `str::strip_suffix(".git")`: drop one trailing `.git` if present. -/
def stripDotGit (l : List Char) : List Char :=
  if ".git".data.isSuffixOf l then l.take (l.length - 4) else l

def ghHttps : List Char := "https://github.com/".data

def ghHttp : List Char := "http://github.com/".data

def ghGit : List Char := "git@github.com:".data

def ghSsh : List Char := "ssh://git@github.com/".data

/-- The four accepted mirror-base shapes, in the order the code tests
them. -/
def ghPrefixes : List (List Char) := [ghHttps, ghHttp, ghGit, ghSsh]

def rawHost : String := "https://raw.githubusercontent.com/"

/-- Whitespace trim, then trailing-slash trim, then one `.git` strip:
the normalization `github_raw_base` applies before matching. -/
def normalizeBase (base : String) : List Char :=
  stripDotGit (trimEndSlashes (asciiTrimList base.data))

/-- Embeds `github_raw_base` (src/aur.rs:261-286).  `none` stands for an
unset `mirror_base` configuration field, defaulted as in the code. -/
def github_raw_base (mirror_base : Option String) : Except String String :=
  let base := mirror_base.getD "https://github.com/archlinux/aur"
  let t := normalizeBase base
  if ghHttps.isPrefixOf t then .ok (rawHost ++ (t.drop ghHttps.length).asString)
  else if ghHttp.isPrefixOf t then
    .ok (rawHost ++ (t.drop ghHttp.length).asString)
  else if ghGit.isPrefixOf t then
    .ok (rawHost ++ (t.drop ghGit.length).asString)
  else if ghSsh.isPrefixOf t then
    .ok (rawHost ++ (t.drop ghSsh.length).asString)
  else
    .error ("Unsupported GitHub mirror base " ++ base ++
      "; expected a github.com URL")

theorem dropWhile_eq_self_of_head (p : Char → Bool) :
    ∀ l : List Char, (∀ c, l.head? = some c → p c = false) → l.dropWhile p = l
  | [], _ => rfl
  | c :: cs, h => by simp [List.dropWhile_cons, h c rfl]

theorem head?_append_left (l x : List Char) (h : l ≠ []) :
    (l ++ x).head? = l.head? := by
  cases l with
  | nil => exact absurd rfl h
  | cons a as => rfl

theorem asciiTrimList_eq_self (l : List Char)
    (h1 : ∀ c, l.head? = some c → c.isWhitespace = false)
    (h2 : ∀ c, l.getLast? = some c → c.isWhitespace = false) :
    asciiTrimList l = l := by
  unfold asciiTrimList
  rw [dropWhile_eq_self_of_head _ l h1]
  rw [dropWhile_eq_self_of_head _ l.reverse
    (fun c hc => h2 c (by rw [← List.head?_reverse]; exact hc))]
  exact List.reverse_reverse l

theorem trimEndSlashes_eq_self (l : List Char)
    (h : ∀ c, l.getLast? = some c → (c == '/') = false) :
    trimEndSlashes l = l := by
  unfold trimEndSlashes
  rw [dropWhile_eq_self_of_head _ l.reverse
    (fun c hc => h c (by rw [← List.head?_reverse]; exact hc))]
  exact List.reverse_reverse l

theorem trimEndSlashes_append_slash (l : List Char) :
    trimEndSlashes (l ++ ['/']) = trimEndSlashes l := by
  unfold trimEndSlashes
  rw [List.reverse_append]
  simp [List.dropWhile_cons]

theorem stripDotGit_eq_self (l : List Char)
    (h : ".git".data.isSuffixOf l = false) : stripDotGit l = l := by
  simp [stripDotGit, h]

theorem stripDotGit_append (l : List Char) :
    stripDotGit (l ++ ".git".data) = l := by
  have hsuf : ".git".data.isSuffixOf (l ++ ".git".data) = true := by
    rw [List.isSuffixOf_iff_suffix]
    exact List.suffix_append l ".git".data
  simp only [stripDotGit, hsuf, if_true, List.length_append]
  have h4 : ".git".data.length = 4 := by decide
  rw [h4]
  have : l.length + 4 - 4 = l.length := by omega
  rw [this]
  exact List.take_left l ".git".data

theorem not_isPre_of_take_ne (a b rest : List Char) (k : Nat)
    (hka : k ≤ a.length) (hkb : k ≤ b.length) (hne : a.take k ≠ b.take k) :
    a.isPrefixOf (b ++ rest) = false := by
  rw [← Bool.not_eq_true, List.isPrefixOf_iff_prefix]
  intro hpre
  apply hne
  obtain ⟨s, hs⟩ := hpre
  have h1 : (a ++ s).take k = a.take k := List.take_append_of_le_length hka
  have h2 : (b ++ rest).take k = b.take k := List.take_append_of_le_length hkb
  rw [← h1, hs, h2]

theorem isPre_append_self (p rest : List Char) :
    p.isPrefixOf (p ++ rest) = true := by
  rw [List.isPrefixOf_iff_prefix]
  exact List.prefix_append p rest

/-- Full evaluation of the base normalization on a well-shaped mirror
base: prefix, owner/repo tail, and an optional trailing slash or `.git`
suffix. -/
theorem normalizeBase_eval (p rest suf : List Char)
    (hpne : p ≠ [])
    (hph : ∀ c0, p.head? = some c0 → c0.isWhitespace = false)
    (hlast : ∃ c, rest.getLast? = some c ∧ c.isWhitespace = false ∧
      (c == '/') = false)
    (hgit : ".git".data.isSuffixOf (p ++ rest) = false)
    (hsuf : suf ∈ [([] : List Char), ['/'], ".git".data]) :
    normalizeBase ⟨(p ++ rest) ++ suf⟩ = p ++ rest := by
  obtain ⟨c, hcl, hcw, hcs⟩ := hlast
  have hrne : rest ≠ [] := by
    intro h
    rw [h] at hcl
    simp at hcl
  have hlast2 : (p ++ rest).getLast? = some c := by
    rw [List.getLast?_append_of_ne_nil _ hrne, hcl]
  have hpre : (p ++ rest) ≠ [] := by
    intro h
    exact hpne (List.append_eq_nil.mp h).1
  have hhead : ∀ c0, ((p ++ rest)).head? = some c0 → c0.isWhitespace = false := by
    intro c0 h0
    rw [head?_append_left p rest hpne] at h0
    exact hph c0 h0
  unfold normalizeBase
  have hdata : (String.mk ((p ++ rest) ++ suf)).data = (p ++ rest) ++ suf := rfl
  rw [hdata]
  have hsuf3 : suf = [] ∨ suf = ['/'] ∨ suf = ".git".data := by
    simpa using hsuf
  rcases hsuf3 with rfl | rfl | rfl
  · rw [List.append_nil]
    rw [asciiTrimList_eq_self _ hhead]
    · rw [trimEndSlashes_eq_self, stripDotGit_eq_self _ hgit]
      intro d hd
      rw [hlast2] at hd
      injection hd with h
      rw [← h]
      exact hcs
    · intro d hd
      rw [hlast2] at hd
      injection hd with h
      rw [← h]
      exact hcw
  · rw [asciiTrimList_eq_self]
    · rw [trimEndSlashes_append_slash, trimEndSlashes_eq_self,
        stripDotGit_eq_self _ hgit]
      intro d hd
      rw [hlast2] at hd
      injection hd with h
      rw [← h]
      exact hcs
    · intro c0 h0
      rw [head?_append_left _ _ hpre, head?_append_left p rest hpne] at h0
      exact hph c0 h0
    · intro d hd
      rw [List.getLast?_append_of_ne_nil _ (by decide : ['/'] ≠ ([] : List Char))] at hd
      injection hd with h
      rw [← h]
      decide
  · rw [asciiTrimList_eq_self]
    · rw [trimEndSlashes_eq_self, stripDotGit_append]
      intro d hd
      rw [List.getLast?_append_of_ne_nil _
        (by decide : ".git".data ≠ ([] : List Char))] at hd
      have ht : (".git".data : List Char).getLast? = some 't' := by decide
      rw [ht] at hd
      injection hd with h
      rw [← h]
      decide
    · intro c0 h0
      rw [head?_append_left _ _ hpre, head?_append_left p rest hpne] at h0
      exact hph c0 h0
    · intro d hd
      rw [List.getLast?_append_of_ne_nil _
        (by decide : ".git".data ≠ ([] : List Char))] at hd
      have ht : (".git".data : List Char).getLast? = some 't' := by decide
      rw [ht] at hd
      injection hd with h
      rw [← h]
      decide

theorem ghPre_head_ws (p : List Char) (hp : p ∈ ghPrefixes) :
    ∀ c0, p.head? = some c0 → c0.isWhitespace = false := by
  have hp4 : p = ghHttps ∨ p = ghHttp ∨ p = ghGit ∨ p = ghSsh := by
    simpa [ghPrefixes] using hp
  intro c0 h0
  rcases hp4 with rfl | rfl | rfl | rfl
  · have e : ghHttps.head? = some 'h' := by decide
    rw [e] at h0
    injection h0 with h
    rw [← h]
    decide
  · have e : ghHttp.head? = some 'h' := by decide
    rw [e] at h0
    injection h0 with h
    rw [← h]
    decide
  · have e : ghGit.head? = some 'g' := by decide
    rw [e] at h0
    injection h0 with h
    rw [← h]
    decide
  · have e : ghSsh.head? = some 's' := by decide
    rw [e] at h0
    injection h0 with h
    rw [← h]
    decide

/-- C10.  The mirror raw-content base derivation accepts all four shapes
`https://github.com/<owner>/<repo>`, `http://github.com/<owner>/<repo>`,
`git@github.com:<owner>/<repo>`, and `ssh://git@github.com/<owner>/<repo>`,
each with an optional trailing slash or `.git` suffix, and rewrites each
to `https://raw.githubusercontent.com/<owner>/<repo>`; a base matching
none of the four (normalized) prefixes fails with a configuration
error. -/
theorem github_raw_base_spec :
    (∀ p, p ∈ ghPrefixes → ∀ o r : List Char,
      (∃ c, r.getLast? = some c ∧ c.isWhitespace = false ∧
        (c == '/') = false) →
      (∀ q, q ∈ ghPrefixes →
        ".git".data.isSuffixOf (q ++ (o ++ '/' :: r)) = false) →
      ∀ suf, suf ∈ [([] : List Char), ['/'], ".git".data] →
      github_raw_base (some ⟨(p ++ (o ++ '/' :: r)) ++ suf⟩) =
        .ok (rawHost ++ (o ++ '/' :: r).asString)) ∧
    (∀ base : String,
      (∀ p, p ∈ ghPrefixes → p.isPrefixOf (normalizeBase base) = false) →
      ∃ e, github_raw_base (some base) = .error e) := by
  constructor
  · intro p hp o r hlast hgit suf hsuf
    obtain ⟨c, hcl, hcw, hcs⟩ := hlast
    have hrne : r ≠ [] := by
      intro h
      rw [h] at hcl
      simp at hcl
    have hgrp : o ++ '/' :: r = (o ++ ['/']) ++ r := by simp
    have hrl : (o ++ '/' :: r).getLast? = some c := by
      rw [hgrp, List.getLast?_append_of_ne_nil _ hrne, hcl]
    have hp4 : p = ghHttps ∨ p = ghHttp ∨ p = ghGit ∨ p = ghSsh := by
      simpa [ghPrefixes] using hp
    have hnorm := normalizeBase_eval p (o ++ '/' :: r) suf
      (by rcases hp4 with rfl | rfl | rfl | rfl <;> decide)
      (ghPre_head_ws p hp)
      ⟨c, hrl, hcw, hcs⟩ (hgit p hp) hsuf
    simp only [github_raw_base, Option.getD]
    rw [hnorm]
    rcases hp4 with rfl | rfl | rfl | rfl
    · rw [isPre_append_self]
      simp only [if_true]
      rw [List.drop_left]
    · have h1 : ghHttps.isPrefixOf (ghHttp ++ (o ++ '/' :: r)) = false :=
        not_isPre_of_take_ne _ _ _ 5 (by decide) (by decide) (by decide)
      rw [h1, isPre_append_self]
      simp only [Bool.false_eq_true, if_false, if_true]
      rw [List.drop_left]
    · have h1 : ghHttps.isPrefixOf (ghGit ++ (o ++ '/' :: r)) = false :=
        not_isPre_of_take_ne _ _ _ 1 (by decide) (by decide) (by decide)
      have h2 : ghHttp.isPrefixOf (ghGit ++ (o ++ '/' :: r)) = false :=
        not_isPre_of_take_ne _ _ _ 1 (by decide) (by decide) (by decide)
      rw [h1, h2, isPre_append_self]
      simp only [Bool.false_eq_true, if_false, if_true]
      rw [List.drop_left]
    · have h1 : ghHttps.isPrefixOf (ghSsh ++ (o ++ '/' :: r)) = false :=
        not_isPre_of_take_ne _ _ _ 1 (by decide) (by decide) (by decide)
      have h2 : ghHttp.isPrefixOf (ghSsh ++ (o ++ '/' :: r)) = false :=
        not_isPre_of_take_ne _ _ _ 1 (by decide) (by decide) (by decide)
      have h3 : ghGit.isPrefixOf (ghSsh ++ (o ++ '/' :: r)) = false :=
        not_isPre_of_take_ne _ _ _ 1 (by decide) (by decide) (by decide)
      rw [h1, h2, h3, isPre_append_self]
      simp only [Bool.false_eq_true, if_false, if_true]
      rw [List.drop_left]
  · intro base hnone
    have h1 := hnone ghHttps (by simp [ghPrefixes])
    have h2 := hnone ghHttp (by simp [ghPrefixes])
    have h3 := hnone ghGit (by simp [ghPrefixes])
    have h4 := hnone ghSsh (by simp [ghPrefixes])
    refine ⟨"Unsupported GitHub mirror base " ++ base ++
      "; expected a github.com URL", ?_⟩
    simp only [github_raw_base, Option.getD]
    rw [h1, h2, h3, h4]
    simp

/-- Witness for C10: the `git@github.com:` form with a trailing slash is
accepted and rewritten to the raw-content host. -/
theorem github_raw_base_spec_witness :
    github_raw_base (some ⟨(ghGit ++ ("acme".data ++ '/' :: "aur".data)) ++ ['/']⟩) =
      .ok (rawHost ++ ("acme".data ++ '/' :: "aur".data).asString) := by
  exact github_raw_base_spec.1 ghGit (by simp [ghPrefixes]) "acme".data "aur".data
    ⟨'r', by decide, by decide, by decide⟩ (by decide) ['/'] (by simp)

/-! ## Branch fetch (src/aur.rs:288-364) -/

/-- One HTTP exchange outcome, as `fetch_srcinfo_from_url` distinguishes
them: a status-coded response with a body, a transport timeout, or
another transport failure. -/
inductive HttpResp where
  | status (code : Nat) (body : String)
  | timeout
  | transportErr
deriving Repr, DecidableEq

/-- Errors of the branch fetch: a non-404 error-status response
(`error_for_status`, 4xx/5xx), a transport failure (non-timeout, or
timeout with retries exhausted), or a SRCINFO parse failure. -/
inductive FetchErr where
  | httpStatus (code : Nat)
  | network
  | parseErr (e : SrcinfoErr)
deriving Repr, DecidableEq

def GITHUB_SRCINFO_MAX_RETRIES : Nat := 3

/-- Embeds the attempt loop of `fetch_srcinfo_from_url`
(src/aur.rs:316-364).  `net url attempt` is the outcome of the HTTP GET
of `url` on the given 0-based attempt; `left` counts remaining attempts.
A 404 yields `ok none` (candidate absent, not an error); a 4xx/5xx
status is fatal (`error_for_status`); any other status has its body
parsed; a timeout retries unless this was the last attempt; any other
transport failure is immediately fatal. -/
def fetchFromUrlAux (net : String → Nat → HttpResp) (url : String) :
    Nat → Nat → Except FetchErr (Option (List AurInfo))
  | 0, _ => .ok none
  | left + 1, attempt =>
    match net url attempt with
    | .status code body =>
      if code = 404 then .ok none
      else if 400 ≤ code ∧ code ≤ 599 then .error (.httpStatus code)
      else
        match parse_srcinfo body with
        | .ok infos => .ok (some infos)
        | .error e => .error (.parseErr e)
    | .timeout =>
      if left = 0 then .error .network
      else fetchFromUrlAux net url left (attempt + 1)
    | .transportErr => .error .network

/-- Embeds `fetch_srcinfo_from_url` (src/aur.rs:316-364). -/
def fetch_srcinfo_from_url (net : String → Nat → HttpResp) (url : String) :
    Except FetchErr (Option (List AurInfo)) :=
  fetchFromUrlAux net url GITHUB_SRCINFO_MAX_RETRIES 0

/-- The three URL candidates of `fetch_branch_srcinfo`
(src/aur.rs:289-296), in construction order: the branch as a top-level
ref, then as a directory under `master`, then under `main`. -/
def candidateUrls (raw_base branch : String) : List String :=
  [raw_base ++ "/" ++ branch ++ "/.SRCINFO",
   raw_base ++ "/master/" ++ branch ++ "/.SRCINFO",
   raw_base ++ "/main/" ++ branch ++ "/.SRCINFO"]

/-- The candidate loop of `fetch_branch_srcinfo` (src/aur.rs:298-313):
the first candidate with a body wins; a 404 moves on; an error is
recorded in `last_err` and the loop moves on; at the end the recorded
error (if any) is returned, else an empty record list. -/
def fetchBranchGo (net : String → Nat → HttpResp) :
    List String → Option FetchErr → Except FetchErr (List AurInfo)
  | [], none => .ok []
  | [], some e => .error e
  | url :: rest, lastErr =>
    match fetch_srcinfo_from_url net url with
    | .ok (some infos) => .ok infos
    | .ok none => fetchBranchGo net rest lastErr
    | .error e => fetchBranchGo net rest (some e)

/-- Embeds `fetch_branch_srcinfo` (src/aur.rs:288-314). -/
def fetch_branch_srcinfo (net : String → Nat → HttpResp)
    (raw_base branch : String) : Except FetchErr (List AurInfo) :=
  fetchBranchGo net (candidateUrls raw_base branch) none

/-- The URLs `fetch_branch_srcinfo` actually requests, in order: every
candidate up to and including the first that returns a body (404s and
errors both move on to the next candidate). -/
def triedUrlsGo (net : String → Nat → HttpResp) : List String → List String
  | [] => []
  | url :: rest =>
    url ::
      match fetch_srcinfo_from_url net url with
      | .ok (some _) => []
      | _ => triedUrlsGo net rest

def triedUrls (net : String → Nat → HttpResp) (raw_base branch : String) :
    List String :=
  triedUrlsGo net (candidateUrls raw_base branch)

/-- Whether a candidate's fetch result carries a body: only
`Ok(Some(..))` stops the candidate loop of `fetch_branch_srcinfo`; a
404 (`Ok(None)`) and an error (`Err`, recorded in `last_err`) both let
it move on (src/aur.rs:298-313). -/
def hasBody : Except FetchErr (Option (List AurInfo)) → Bool
  | .ok (some _) => true
  | _ => false

/-- C3 counterexample: for mirror base `https://github.com/acme/aur` and
branch `foo`, when every candidate returns 404 the attempt after the
first is the `master` candidate, not the `main` candidate the claim
names. -/
theorem mirror_url_order_cex :
    github_raw_base (some "https://github.com/acme/aur") =
      .ok "https://raw.githubusercontent.com/acme/aur" ∧
    (triedUrls (fun _ _ => .status 404 "")
        "https://raw.githubusercontent.com/acme/aur" "foo").get? 1 =
      some "https://raw.githubusercontent.com/acme/aur/master/foo/.SRCINFO" ∧
    ¬ ((triedUrls (fun _ _ => .status 404 "")
        "https://raw.githubusercontent.com/acme/aur" "foo").get? 1 =
      some "https://raw.githubusercontent.com/acme/aur/main/foo/.SRCINFO") := by
  refine ⟨by decide, by decide, by decide⟩

/-- C3 (amended).  The candidates for a branch are constructed and
tried in the order top-level, `master`, `main`; the first candidate
returning a body ends the fetch, and a candidate answering 404 or an
error moves the loop on.  Consequently the attempt after the top-level
candidate (when it yields no body, in particular on a 404) is the
`master` URL, and the `main` URL is attempted exactly when neither the
top-level nor the `master` candidate returns a body. -/
theorem mirror_url_order (net : String → Nat → HttpResp)
    (raw_base branch : String) :
    candidateUrls raw_base branch =
      [raw_base ++ "/" ++ branch ++ "/.SRCINFO",
       raw_base ++ "/master/" ++ branch ++ "/.SRCINFO",
       raw_base ++ "/main/" ++ branch ++ "/.SRCINFO"] ∧
    triedUrls net raw_base branch =
      (if hasBody (fetch_srcinfo_from_url net
          (raw_base ++ "/" ++ branch ++ "/.SRCINFO")) then
        [raw_base ++ "/" ++ branch ++ "/.SRCINFO"]
      else if hasBody (fetch_srcinfo_from_url net
          (raw_base ++ "/master/" ++ branch ++ "/.SRCINFO")) then
        [raw_base ++ "/" ++ branch ++ "/.SRCINFO",
         raw_base ++ "/master/" ++ branch ++ "/.SRCINFO"]
      else
        [raw_base ++ "/" ++ branch ++ "/.SRCINFO",
         raw_base ++ "/master/" ++ branch ++ "/.SRCINFO",
         raw_base ++ "/main/" ++ branch ++ "/.SRCINFO"]) ∧
    ((triedUrls net raw_base branch).get? 1 =
        some (raw_base ++ "/master/" ++ branch ++ "/.SRCINFO") ↔
      hasBody (fetch_srcinfo_from_url net
        (raw_base ++ "/" ++ branch ++ "/.SRCINFO")) = false) ∧
    ((triedUrls net raw_base branch).get? 2 =
        some (raw_base ++ "/main/" ++ branch ++ "/.SRCINFO") ↔
      (hasBody (fetch_srcinfo_from_url net
          (raw_base ++ "/" ++ branch ++ "/.SRCINFO")) = false ∧
        hasBody (fetch_srcinfo_from_url net
          (raw_base ++ "/master/" ++ branch ++ "/.SRCINFO")) = false)) := by
  have hmain : triedUrls net raw_base branch =
      (if hasBody (fetch_srcinfo_from_url net
          (raw_base ++ "/" ++ branch ++ "/.SRCINFO")) then
        [raw_base ++ "/" ++ branch ++ "/.SRCINFO"]
      else if hasBody (fetch_srcinfo_from_url net
          (raw_base ++ "/master/" ++ branch ++ "/.SRCINFO")) then
        [raw_base ++ "/" ++ branch ++ "/.SRCINFO",
         raw_base ++ "/master/" ++ branch ++ "/.SRCINFO"]
      else
        [raw_base ++ "/" ++ branch ++ "/.SRCINFO",
         raw_base ++ "/master/" ++ branch ++ "/.SRCINFO",
         raw_base ++ "/main/" ++ branch ++ "/.SRCINFO"]) := by
    simp only [triedUrls, candidateUrls, triedUrlsGo]
    cases hf0 : fetch_srcinfo_from_url net
        (raw_base ++ "/" ++ branch ++ "/.SRCINFO") with
    | ok o0 =>
      cases o0 with
      | some infos0 => simp [hasBody]
      | none =>
        cases hf1 : fetch_srcinfo_from_url net
            (raw_base ++ "/master/" ++ branch ++ "/.SRCINFO") with
        | ok o1 =>
          cases o1 with
          | some infos1 => simp [hasBody]
          | none =>
            cases hf2 : fetch_srcinfo_from_url net
                (raw_base ++ "/main/" ++ branch ++ "/.SRCINFO") with
            | ok o2 =>
              cases o2 with
              | some infos2 => simp [hasBody]
              | none => simp [hasBody]
            | error e2 => simp [hasBody]
        | error e1 =>
          cases hf2 : fetch_srcinfo_from_url net
              (raw_base ++ "/main/" ++ branch ++ "/.SRCINFO") with
          | ok o2 =>
            cases o2 with
            | some infos2 => simp [hasBody]
            | none => simp [hasBody]
          | error e2 => simp [hasBody]
    | error e0 =>
      cases hf1 : fetch_srcinfo_from_url net
          (raw_base ++ "/master/" ++ branch ++ "/.SRCINFO") with
      | ok o1 =>
        cases o1 with
        | some infos1 => simp [hasBody]
        | none =>
          cases hf2 : fetch_srcinfo_from_url net
              (raw_base ++ "/main/" ++ branch ++ "/.SRCINFO") with
          | ok o2 =>
            cases o2 with
            | some infos2 => simp [hasBody]
            | none => simp [hasBody]
          | error e2 => simp [hasBody]
      | error e1 =>
        cases hf2 : fetch_srcinfo_from_url net
            (raw_base ++ "/main/" ++ branch ++ "/.SRCINFO") with
        | ok o2 =>
          cases o2 with
          | some infos2 => simp [hasBody]
          | none => simp [hasBody]
        | error e2 => simp [hasBody]
  refine ⟨rfl, hmain, ?_, ?_⟩
  · rw [hmain]
    by_cases hb0 : hasBody (fetch_srcinfo_from_url net
        (raw_base ++ "/" ++ branch ++ "/.SRCINFO")) = true
    · rw [if_pos hb0]
      simp [hb0]
    · rw [if_neg hb0]
      by_cases hb1 : hasBody (fetch_srcinfo_from_url net
          (raw_base ++ "/master/" ++ branch ++ "/.SRCINFO")) = true
      · rw [if_pos hb1]
        simp [Bool.eq_false_iff.mpr hb0]
      · rw [if_neg hb1]
        simp [Bool.eq_false_iff.mpr hb0]
  · rw [hmain]
    by_cases hb0 : hasBody (fetch_srcinfo_from_url net
        (raw_base ++ "/" ++ branch ++ "/.SRCINFO")) = true
    · rw [if_pos hb0]
      simp [hb0]
    · rw [if_neg hb0]
      by_cases hb1 : hasBody (fetch_srcinfo_from_url net
          (raw_base ++ "/master/" ++ branch ++ "/.SRCINFO")) = true
      · rw [if_pos hb1]
        simp [hb1]
      · rw [if_neg hb1]
        simp [Bool.eq_false_iff.mpr hb0, Bool.eq_false_iff.mpr hb1]

/-- Witness for C3 (amended): a 500 (an error, not a 404) on the
top-level and `master` candidates still walks the loop to the `main`
candidate. -/
theorem mirror_url_order_witness :
    (triedUrls (fun _ _ => .status 500 "")
        "https://raw.githubusercontent.com/acme/aur" "foo").get? 2 =
      some ("https://raw.githubusercontent.com/acme/aur" ++ "/main/" ++
        "foo" ++ "/.SRCINFO") :=
  ((mirror_url_order (fun _ _ => .status 500 "")
    "https://raw.githubusercontent.com/acme/aur" "foo").2.2.2).mpr
    ⟨by decide, by decide⟩

/-- Network oracle for the C4 counterexample: server error 500 on the
first candidate, a valid body on the second, 404 elsewhere. -/
def netCexC4 : String → Nat → HttpResp := fun url _ =>
  if url = "https://raw.githubusercontent.com/acme/aur/foo/.SRCINFO" then
    .status 500 ""
  else if url = "https://raw.githubusercontent.com/acme/aur/master/foo/.SRCINFO" then
    .status 200 "pkgbase=foo\npkgver=1\npkgrel=1"
  else .status 404 ""

/-- C4 counterexample: a non-404 non-2xx response (500) on the first
candidate is recorded but the loop continues; the second candidate
succeeds, so the branch fetch returns records instead of failing. -/
theorem branch_error_not_fatal_cex :
    netCexC4 "https://raw.githubusercontent.com/acme/aur/foo/.SRCINFO" 0 =
      .status 500 "" ∧
    fetch_srcinfo_from_url netCexC4
      "https://raw.githubusercontent.com/acme/aur/foo/.SRCINFO" =
      .error (.httpStatus 500) ∧
    fetch_branch_srcinfo netCexC4 "https://raw.githubusercontent.com/acme/aur"
      "foo" =
      .ok [{ name := "foo", pkgbase := "foo", version := "1-1",
             depends := none, makedepends := none, checkdepends := none }] := by
  refine ⟨by decide, by decide, by decide⟩

/-- The first candidate outcome carrying a body, if any (outcomes are
listed in candidate order). -/
def firstBody : List (Except FetchErr (Option (List AurInfo))) →
    Option (List AurInfo)
  | [] => none
  | .ok (some i) :: _ => some i
  | .ok none :: rest => firstBody rest
  | .error _ :: rest => firstBody rest

/-- The last error among the outcomes before the first body, threaded
through an accumulator exactly like `last_err` in the source. -/
def lastErrOf : List (Except FetchErr (Option (List AurInfo))) →
    Option FetchErr → Option FetchErr
  | [], acc => acc
  | .ok (some _) :: _, acc => acc
  | .ok none :: rest, acc => lastErrOf rest acc
  | .error e :: rest, _ => lastErrOf rest (some e)

theorem fetchBranchGo_spec (net : String → Nat → HttpResp) :
    ∀ (urls : List String) (acc : Option FetchErr),
    fetchBranchGo net urls acc =
      match firstBody (urls.map (fetch_srcinfo_from_url net)) with
      | some infos => .ok infos
      | none =>
        match lastErrOf (urls.map (fetch_srcinfo_from_url net)) acc with
        | some e => .error e
        | none => .ok [] := by
  intro urls
  induction urls with
  | nil =>
    intro acc
    cases acc <;> rfl
  | cons url rest ih =>
    intro acc
    simp only [List.map_cons]
    cases hf : fetch_srcinfo_from_url net url with
    | ok o =>
      cases o with
      | some infos => simp [fetchBranchGo, hf, firstBody, lastErrOf]
      | none => simp [fetchBranchGo, hf, firstBody, lastErrOf, ih]
    | error e => simp [fetchBranchGo, hf, firstBody, lastErrOf, ih]

/-- C4 (amended).  A 404 on a candidate URL moves on to the next
candidate and is not an error.  A non-404 error-status (4xx/5xx)
response is recorded but does NOT abort the branch fetch: the loop
continues with later candidates, and if any of them returns a body the
fetch succeeds with that body.  The branch fetch fails — with the most
recently recorded error — exactly when no candidate returns a body and
at least one candidate produced an error; when every candidate is a
404, the result is an empty record list, not an error. -/
theorem branch_fetch_outcome (net : String → Nat → HttpResp)
    (raw_base branch : String) :
    fetch_branch_srcinfo net raw_base branch =
      match firstBody ((candidateUrls raw_base branch).map
          (fetch_srcinfo_from_url net)) with
      | some infos => .ok infos
      | none =>
        match lastErrOf ((candidateUrls raw_base branch).map
            (fetch_srcinfo_from_url net)) none with
        | some e => .error e
        | none => .ok [] := by
  exact fetchBranchGo_spec net (candidateUrls raw_base branch) none

/-! ## Dependency resolver / build-order engine (src/aur.rs:79-157)

The metadata source is modelled as a fixed finite database keyed by
name: one `fetch` call returns the database records whose names are in
the requested chunk.  This captures the observable behavior of both
source variants on a successful fetch (results only for requested names,
consistent across calls within one run).  The iteration order of the
`infos` hash map — unspecified and seed-randomized in Rust — is made
explicit as a reordering function `σ` applied to the collected names
when the graph is built. -/

/-- Embeds `strip_version` (src/aur.rs:79-85): the segment before the
first `<`, `>` or `=`. -/
def takeUntilCmp : List Char → List Char
  | [] => []
  | c :: cs =>
    if c = '<' ∨ c = '>' ∨ c = '=' then [] else c :: takeUntilCmp cs

def strip_version (dep : String) : String := ⟨takeUntilCmp dep.data⟩

/-- Embeds `resolve_dep_names` (src/aur.rs:87-99). -/
def resolve_dep_names (info : AurInfo) : List String :=
  (info.depends.getD []).map strip_version ++
    (info.makedepends.getD []).map strip_version ++
    (info.checkdepends.getD []).map strip_version

/-- The metadata source as a database filter (see section comment). -/
def fetchDb (db : List AurInfo) (names : List String) : List AurInfo :=
  db.filter fun i => names.contains i.name

/-- The per-record body of the fetch loop of `resolve_build_order`
(src/aur.rs:116-124): for each fetched record not yet seen, mark.it
seen, record it, and queue its stripped dependency names.  Returns the
new seen set, the new info list, and the newly queued names. -/
def addStep (acc : List String × List AurInfo × List String)
    (info : AurInfo) : List String × List AurInfo × List String :=
  if acc.1.contains info.name then acc
  else (acc.1 ++ [info.name], acc.2.1 ++ [info],
    acc.2.2 ++ resolve_dep_names info)

def addFetched (fetched : List AurInfo) (seen : List String)
    (infos : List AurInfo) : List String × List AurInfo × List String :=
  fetched.foldl addStep (seen, infos, [])

/-- The BFS fetch loop of `resolve_build_order` (src/aur.rs:107-125),
with explicit fuel.  Each iteration drains up to 100 names, drops the
already-seen ones, fetches the rest, and appends newly discovered
dependency names to the queue. -/
def resolveLoopFuel (db : List AurInfo) :
    Nat → List String → List String → List AurInfo → List AurInfo
  | 0, _, _, infos => infos
  | fuel + 1, to_visit, seen, infos =>
    match to_visit with
    | [] => infos
    | _ :: _ =>
      let chunk := to_visit.take 100
      let rest := to_visit.drop 100
      let chunk2 := chunk.filter fun n => !(seen.contains n)
      if chunk2.isEmpty then resolveLoopFuel db fuel rest seen infos
      else
        let fetched := fetchDb db chunk2
        let step := addFetched fetched seen infos
        resolveLoopFuel db fuel (rest ++ step.2.2) step.1 step.2.1

/-- Fuel that always suffices for the BFS loop: every queued name costs
one iteration, and every database record can enlarge the queue at most
once. -/
def resolveFuel (db : List AurInfo) (roots : List String) : Nat :=
  roots.length + (db.map fun i => 1 + (resolve_dep_names i).length).sum + 1

/-- The map from names to records accumulated by the BFS loop of
`resolve_build_order`, in insertion order. -/
def resolve_infos (db : List AurInfo) (roots : List String) : List AurInfo :=
  resolveLoopFuel db (resolveFuel db roots) roots [] []

/-- The edge list of the dependency graph (src/aur.rs:134-142): for each
record and each stripped dependency name that is itself a key of the
info map, one edge dependency → dependent. -/
def graphEdges (infos : List AurInfo) : List (String × String) :=
  infos.flatMap fun info =>
    (resolve_dep_names info).filterMap fun d =>
      if infos.any (fun j => j.name = d) then some (d, info.name) else none

/-- `n` has no incoming edge from inside `remaining`. -/
def noIncoming (edges : List (String × String)) (remaining : List String)
    (n : String) : Bool :=
  edges.all fun e => !(e.2 == n && remaining.contains e.1)

/-- The first remaining node with no incoming edge from the rest. -/
def pickSource (edges : List (String × String)) (remaining : List String) :
    Option String :=
  remaining.find? (noIncoming edges remaining)

/-- Some predecessor of `n` inside `remaining` (the node itself if none
exists — when the sort is stuck, every remaining node has one). -/
def predFn (edges : List (String × String)) (remaining : List String)
    (n : String) : String :=
  match edges.find? (fun e => e.2 == n && remaining.contains e.1) with
  | some e => e.1
  | none => n

/-- When the sort is stuck, following predecessors `|remaining|` times
from any start lands on a node that provably lies on a cycle. -/
def cycleNode (edges : List (String × String)) (remaining : List String) :
    String :=
  (predFn edges remaining)^[remaining.length] (remaining.headD "")

/-- Kahn-style topological sort with cycle reporting, the model of
`petgraph::algo::toposort` at the library contract: either a topological
order of all nodes, or an error carrying a node that lies on a cycle. -/
def kahnAux (edges : List (String × String)) :
    Nat → List String → Except String (List String)
  | 0, remaining =>
    if remaining.isEmpty then .ok [] else .error (cycleNode edges remaining)
  | fuel + 1, remaining =>
    match pickSource edges remaining with
    | some s => (kahnAux edges fuel (remaining.erase s)).map (s :: ·)
    | none =>
      if remaining.isEmpty then .ok [] else .error (cycleNode edges remaining)

def toposort (edges : List (String × String)) (nodes : List String) :
    Except String (List String) :=
  kahnAux edges nodes.length nodes

/-- Embeds `resolve_build_order` (src/aur.rs:101-157) over the database
model of the metadata source; `σ` is the hash-map iteration order used
when the graph nodes are inserted (any permutation of the collected
names). -/
def resolve_build_order (db : List AurInfo) (σ : List String → List String)
    (roots : List String) : Except String (List String) :=
  let infos := resolve_infos db roots
  let nodes := σ (infos.map (·.name))
  let edges := graphEdges infos
  (toposort edges nodes).map fun order =>
    (order.filter fun n =>
      roots.contains n || infos.any fun i => i.name == n).filter
      fun n => infos.any fun i => i.name == n

/-- Forward walks in the edge list, with length. -/
inductive WalkN (edges : List (String × String)) : String → String → Nat → Prop
  | refl (a : String) : WalkN edges a a 0
  | step {a b c : String} {n : Nat} :
      (a, b) ∈ edges → WalkN edges b c n → WalkN edges a c (n + 1)

/-- `c` lies on a directed cycle of the edge list. -/
def OnCycle (edges : List (String × String)) (c : String) : Prop :=
  ∃ m, 0 < m ∧ WalkN edges c c m

/-- The graph has a directed cycle (it is not a DAG). -/
def HasCycle (edges : List (String × String)) : Prop :=
  ∃ c, OnCycle edges c

/-! ## Correctness of the topological sort model -/

theorem noIncoming_no_edge (edges : List (String × String))
    (remaining : List String) (n : String)
    (h : noIncoming edges remaining n = true)
    (u : String) (hu : (u, n) ∈ edges) (hur : u ∈ remaining) : False := by
  have hall := List.all_eq_true.mp h (u, n) hu
  simp only [Bool.not_eq_true', Bool.and_eq_false_iff] at hall
  rcases hall with h1 | h2
  · simp at h1
  · exact absurd (List.elem_eq_true_of_mem hur) (by simpa using h2)

theorem noIncoming_false (edges : List (String × String))
    (remaining : List String) (n : String)
    (h : noIncoming edges remaining n = false) :
    ∃ u, (u, n) ∈ edges ∧ u ∈ remaining := by
  unfold noIncoming at h
  have h2 : ¬ ∀ e ∈ edges, (!(e.2 == n && remaining.contains e.1)) = true := by
    intro hall
    rw [← List.all_eq_true] at hall
    rw [hall] at h
    exact Bool.noConfusion h
  push_neg at h2
  obtain ⟨e, he, hne⟩ := h2
  have hne2 : (e.2 == n && remaining.contains e.1) = true := by
    cases hb : (e.2 == n && remaining.contains e.1)
    · exact absurd (by rw [hb]; rfl) hne
    · rfl
  rw [Bool.and_eq_true, beq_iff_eq] at hne2
  obtain ⟨h21, h22⟩ := hne2
  refine ⟨e.1, ?_, List.mem_of_elem_eq_true h22⟩
  have hee : (e.1, n) = e := by
    rw [← h21]
  rw [hee]
  exact he

theorem pickSource_mem (edges : List (String × String))
    (remaining : List String) (s : String)
    (h : pickSource edges remaining = some s) :
    s ∈ remaining ∧ noIncoming edges remaining s = true :=
  ⟨List.mem_of_find?_eq_some h, List.find?_some h⟩

theorem pickSource_none (edges : List (String × String))
    (remaining : List String) (h : pickSource edges remaining = none) :
    ∀ n ∈ remaining, ∃ u, (u, n) ∈ edges ∧ u ∈ remaining := by
  intro n hn
  have hnot := List.find?_eq_none.mp h n hn
  apply noIncoming_false
  cases hb : noIncoming edges remaining n
  · rfl
  · exact absurd hb hnot

theorem predFn_spec (edges : List (String × String))
    (remaining : List String) (n : String)
    (h : ∃ u, (u, n) ∈ edges ∧ u ∈ remaining) :
    (predFn edges remaining n, n) ∈ edges ∧
      predFn edges remaining n ∈ remaining := by
  unfold predFn
  obtain ⟨u, hu, hur⟩ := h
  have hsome : (edges.find? fun e => e.2 == n && remaining.contains e.1).isSome := by
    rw [List.find?_isSome]
    exact ⟨(u, n), hu, by simp [hur]⟩
  obtain ⟨e, he⟩ := Option.isSome_iff_exists.mp hsome
  rw [he]
  have hmem := List.mem_of_find?_eq_some he
  have hpred := List.find?_some he
  simp only [Bool.and_eq_true, beq_iff_eq] at hpred
  constructor
  · have : e = (e.1, n) := by
      rw [← hpred.1]
    rw [← this]
    exact hmem
  · exact List.mem_of_elem_eq_true hpred.2

theorem iterate_mem (f : String → String) (remaining : List String)
    (hf : ∀ n ∈ remaining, f n ∈ remaining) (x : String) (hx : x ∈ remaining) :
    ∀ k, f^[k] x ∈ remaining := by
  intro k
  induction k with
  | zero => simpa
  | succ k ih =>
    rw [Function.iterate_succ_apply']
    exact hf _ ih

theorem walk_iterate (edges : List (String × String)) (remaining : List String)
    (f : String → String)
    (hedge : ∀ n ∈ remaining, (f n, n) ∈ edges)
    (hf : ∀ n ∈ remaining, f n ∈ remaining) :
    ∀ k (z : String), z ∈ remaining → WalkN edges (f^[k] z) z k := by
  intro k
  induction k with
  | zero =>
    intro z _
    exact WalkN.refl z
  | succ k ih =>
    intro z hz
    rw [Function.iterate_succ_apply']
    have hmem : f^[k] z ∈ remaining := iterate_mem f remaining hf z hz k
    exact WalkN.step (hedge _ hmem) (ih z hz)

theorem cycle_of_repeat (edges : List (String × String))
    (remaining : List String) (f : String → String)
    (hedge : ∀ n ∈ remaining, (f n, n) ∈ edges)
    (hf : ∀ n ∈ remaining, f n ∈ remaining)
    (x : String) (hx : x ∈ remaining) (N i j : Nat)
    (hij : i < j) (hjN : j ≤ N) (heq : f^[i] x = f^[j] x) :
    f^[N] x ∈ remaining ∧ OnCycle edges (f^[N] x) := by
  have hmemN : f^[N] x ∈ remaining := iterate_mem f remaining hf x hx N
  refine ⟨hmemN, ?_⟩
  set p := j - i with hp
  have hp0 : 0 < p := by omega
  have hper : ∀ k, i ≤ k → f^[k + p] x = f^[k] x := by
    intro k hk
    induction k, hk using Nat.le_induction with
    | base =>
      have : i + p = j := by omega
      rw [this, heq]
    | succ k hk ih =>
      have h1 : k + 1 + p = (k + p) + 1 := by omega
      rw [h1, Function.iterate_succ_apply', ih]
      exact (Function.iterate_succ_apply' f k x).symm
  have hiN : i ≤ N := by omega
  have hfix : f^[p] (f^[N] x) = f^[N] x := by
    rw [← Function.iterate_add_apply]
    have : p + N = N + p := by omega
    rw [this]
    exact hper N hiN
  refine ⟨p, hp0, ?_⟩
  have hwalk := walk_iterate edges remaining f hedge hf p (f^[N] x) hmemN
  rw [hfix] at hwalk
  exact hwalk

theorem cycleNode_spec (edges : List (String × String))
    (remaining : List String) (hne : remaining ≠ [])
    (hstuck : ∀ n ∈ remaining, ∃ u, (u, n) ∈ edges ∧ u ∈ remaining) :
    cycleNode edges remaining ∈ remaining ∧
      OnCycle edges (cycleNode edges remaining) := by
  have hedge : ∀ n ∈ remaining, (predFn edges remaining n, n) ∈ edges :=
    fun n hn => (predFn_spec edges remaining n (hstuck n hn)).1
  have hf : ∀ n ∈ remaining, predFn edges remaining n ∈ remaining :=
    fun n hn => (predFn_spec edges remaining n (hstuck n hn)).2
  have hx : remaining.headD "" ∈ remaining := by
    cases remaining with
    | nil => exact absurd rfl hne
    | cons a l => exact List.mem_cons_self a l
  set N := remaining.length with hN
  have hcard : remaining.toFinset.card < (Finset.range (N + 1)).card := by
    rw [Finset.card_range]
    exact Nat.lt_succ_of_le (List.toFinset_card_le remaining)
  obtain ⟨i, hi, j, hj, hij, heq⟩ :=
    Finset.exists_ne_map_eq_of_card_lt_of_maps_to hcard
      (fun k _ => List.mem_toFinset.mpr
        (iterate_mem (predFn edges remaining) remaining hf _ hx k))
  have hiN : i ≤ N := by
    have := Finset.mem_range.mp hi
    omega
  have hjN : j ≤ N := by
    have := Finset.mem_range.mp hj
    omega
  unfold cycleNode
  rcases Nat.lt_or_ge i j with h | h
  · exact cycle_of_repeat edges remaining _ hedge hf _ hx N i j h hjN heq
  · have h2 : j < i := by omega
    exact cycle_of_repeat edges remaining _ hedge hf _ hx N j i h2 hiN heq.symm

theorem kahnAux_ok_perm (edges : List (String × String)) :
    ∀ (fuel : Nat) (remaining ord : List String),
    remaining.length ≤ fuel → kahnAux edges fuel remaining = .ok ord →
    ord.Perm remaining := by
  intro fuel
  induction fuel with
  | zero =>
    intro remaining ord hle hok
    have hnil : remaining = [] := List.length_eq_zero.mp (Nat.le_zero.mp hle)
    subst hnil
    simp only [kahnAux, List.isEmpty_nil, if_true, Except.ok.injEq] at hok
    rw [← hok]
  | succ fuel ih =>
    intro remaining ord hle hok
    simp only [kahnAux] at hok
    cases hpick : pickSource edges remaining with
    | some s =>
      simp only [hpick] at hok
      obtain ⟨hs, _⟩ := pickSource_mem edges remaining s hpick
      cases hrec : kahnAux edges fuel (remaining.erase s) with
      | ok ord2 =>
        rw [hrec] at hok
        simp only [Except.map, Except.ok.injEq] at hok
        have hlen : (remaining.erase s).length ≤ fuel := by
          rw [List.length_erase_of_mem hs]
          omega
        have hperm := ih (remaining.erase s) ord2 hlen hrec
        rw [← hok]
        exact ((hperm.cons s).trans (List.perm_cons_erase hs).symm)
      | error e =>
        rw [hrec] at hok
        simp only [Except.map] at hok
        exact Except.noConfusion hok
    | none =>
      simp only [hpick] at hok
      cases hrem : remaining with
      | nil =>
        subst hrem
        simp only [List.isEmpty_nil, if_true, Except.ok.injEq] at hok
        rw [← hok]
      | cons a l =>
        subst hrem
        simp only [List.isEmpty_cons, Bool.false_eq_true, if_false] at hok
        exact Except.noConfusion hok

theorem kahnAux_ok_order (edges : List (String × String)) :
    ∀ (fuel : Nat) (remaining ord : List String),
    remaining.length ≤ fuel → remaining.Nodup →
    kahnAux edges fuel remaining = .ok ord →
    ∀ u v : String, (u, v) ∈ edges → u ∈ remaining → v ∈ remaining →
      ord.indexOf u < ord.indexOf v := by
  intro fuel
  induction fuel with
  | zero =>
    intro remaining ord hle _ _ u v _ hu _
    have hnil : remaining = [] := List.length_eq_zero.mp (Nat.le_zero.mp hle)
    subst hnil
    exact absurd hu (List.not_mem_nil u)
  | succ fuel ih =>
    intro remaining ord hle hnd hok u v he hu hv
    simp only [kahnAux] at hok
    cases hpick : pickSource edges remaining with
    | some s =>
      simp only [hpick] at hok
      obtain ⟨hs, hnoinc⟩ := pickSource_mem edges remaining s hpick
      cases hrec : kahnAux edges fuel (remaining.erase s) with
      | ok ord2 =>
        rw [hrec] at hok
        simp only [Except.map, Except.ok.injEq] at hok
        have hvs : v ≠ s := by
          intro hvs
          subst hvs
          exact noIncoming_no_edge edges remaining v hnoinc u he hu
        rw [← hok]
        by_cases hus : u = s
        · subst hus
          rw [List.indexOf_cons_self]
          rw [List.indexOf_cons_ne ord2 (Ne.symm hvs)]
          omega
        · have hlen : (remaining.erase s).length ≤ fuel := by
            rw [List.length_erase_of_mem hs]
            omega
          have hu2 : u ∈ remaining.erase s := (List.mem_erase_of_ne hus).mpr hu
          have hv2 : v ∈ remaining.erase s := (List.mem_erase_of_ne hvs).mpr hv
          have := ih (remaining.erase s) ord2 hlen (hnd.erase s) hrec u v he hu2 hv2
          rw [List.indexOf_cons_ne ord2 (Ne.symm hus),
            List.indexOf_cons_ne ord2 (Ne.symm hvs)]
          omega
      | error e =>
        rw [hrec] at hok
        simp only [Except.map] at hok
        exact Except.noConfusion hok
    | none =>
      simp only [hpick] at hok
      cases hrem : remaining with
      | nil =>
        subst hrem
        exact absurd hu (List.not_mem_nil u)
      | cons a l =>
        subst hrem
        simp only [List.isEmpty_cons, Bool.false_eq_true, if_false] at hok
        exact Except.noConfusion hok

theorem kahnAux_error (edges : List (String × String)) :
    ∀ (fuel : Nat) (remaining : List String) (c : String),
    remaining.length ≤ fuel → kahnAux edges fuel remaining = .error c →
    c ∈ remaining ∧ OnCycle edges c := by
  intro fuel
  induction fuel with
  | zero =>
    intro remaining c hle herr
    have hnil : remaining = [] := List.length_eq_zero.mp (Nat.le_zero.mp hle)
    subst hnil
    simp only [kahnAux, List.isEmpty_nil, if_true] at herr
    exact Except.noConfusion herr
  | succ fuel ih =>
    intro remaining c hle herr
    simp only [kahnAux] at herr
    cases hpick : pickSource edges remaining with
    | some s =>
      simp only [hpick] at herr
      obtain ⟨hs, _⟩ := pickSource_mem edges remaining s hpick
      cases hrec : kahnAux edges fuel (remaining.erase s) with
      | ok ord2 =>
        rw [hrec] at herr
        simp only [Except.map] at herr
        exact Except.noConfusion herr
      | error e =>
        rw [hrec] at herr
        simp only [Except.map, Except.error.injEq] at herr
        subst herr
        have hlen : (remaining.erase s).length ≤ fuel := by
          rw [List.length_erase_of_mem hs]
          omega
        obtain ⟨hc, hcyc⟩ := ih (remaining.erase s) e hlen hrec
        exact ⟨List.mem_of_mem_erase hc, hcyc⟩
    | none =>
      simp only [hpick] at herr
      cases hrem : remaining with
      | nil =>
        subst hrem
        simp only [List.isEmpty_nil, if_true] at herr
        exact Except.noConfusion herr
      | cons a l =>
        subst hrem
        simp only [List.isEmpty_cons, Bool.false_eq_true, if_false,
          Except.error.injEq] at herr
        subst herr
        exact cycleNode_spec edges (a :: l) (List.cons_ne_nil a l)
          (pickSource_none edges (a :: l) hpick)

theorem walkN_zero (edges : List (String × String)) (a b : String)
    (h : WalkN edges a b 0) : a = b := by
  cases h
  rfl

theorem walkN_indexOf (edges : List (String × String)) (ord : List String)
    (horder : ∀ u v : String, (u, v) ∈ edges →
      ord.indexOf u < ord.indexOf v) :
    ∀ (m : Nat) (a b : String), WalkN edges a b m → 0 < m →
      ord.indexOf a < ord.indexOf b := by
  intro m
  induction m with
  | zero =>
    intro a b _ h0
    omega
  | succ k ih =>
    intro a b h _
    cases h with
    | step hedge htail =>
      rcases Nat.eq_zero_or_pos k with rfl | hk
      · have heq := walkN_zero edges _ _ htail
        rw [← heq]
        exact horder _ _ hedge
      · exact lt_trans (horder _ _ hedge) (ih _ _ htail hk)

/-! ## Resolver-loop invariants -/

theorem addFold_inv (fetched : List AurInfo) :
    ∀ acc : List String × List AurInfo × List String,
    (∀ i ∈ acc.2.1, i.name ∈ acc.1) → (acc.2.1.map AurInfo.name).Nodup →
    (∀ i ∈ (fetched.foldl addStep acc).2.1,
        i.name ∈ (fetched.foldl addStep acc).1) ∧
      ((fetched.foldl addStep acc).2.1.map AurInfo.name).Nodup ∧
      (∀ i ∈ (fetched.foldl addStep acc).2.1, i ∈ acc.2.1 ∨ i ∈ fetched) := by
  induction fetched with
  | nil =>
    intro acc h1 h2
    exact ⟨h1, h2, fun i hi => Or.inl hi⟩
  | cons info rest ih =>
    intro acc h1 h2
    rw [List.foldl_cons]
    by_cases hc : acc.1.contains info.name = true
    · have hstep : addStep acc info = acc := by
        unfold addStep
        rw [if_pos hc]
      rw [hstep]
      obtain ⟨a, b, c⟩ := ih acc h1 h2
      exact ⟨a, b, fun i hi => (c i hi).imp id (List.mem_cons_of_mem _)⟩
    · have hstep : addStep acc info =
        (acc.1 ++ [info.name], acc.2.1 ++ [info],
          acc.2.2 ++ resolve_dep_names info) := by
        unfold addStep
        rw [if_neg hc]
      rw [hstep]
      have hnotin : info.name ∉ acc.2.1.map AurInfo.name := by
        intro hmem
        obtain ⟨i, hi, hname⟩ := List.mem_map.mp hmem
        have := h1 i hi
        rw [hname] at this
        exact hc (List.elem_eq_true_of_mem this)
      have h1b : ∀ i ∈ acc.2.1 ++ [info], i.name ∈ acc.1 ++ [info.name] := by
        intro i hi
        rcases List.mem_append.mp hi with h | h
        · exact List.mem_append.mpr (Or.inl (h1 i h))
        · simp only [List.mem_singleton] at h
          subst h
          exact List.mem_append.mpr (Or.inr (List.mem_singleton.mpr rfl))
      have h2b : ((acc.2.1 ++ [info]).map AurInfo.name).Nodup := by
        rw [List.map_append]
        rw [List.nodup_append]
        refine ⟨h2, List.nodup_singleton _, ?_⟩
        intro x hx
        simp only [List.map_cons, List.map_nil, List.mem_singleton]
        intro heq
        rw [heq] at hx
        exact hnotin hx
      obtain ⟨a, b, c⟩ := ih (acc.1 ++ [info.name], acc.2.1 ++ [info],
        acc.2.2 ++ resolve_dep_names info) h1b h2b
      refine ⟨a, b, fun i hi => ?_⟩
      rcases c i hi with h | h
      · rcases List.mem_append.mp h with h3 | h3
        · exact Or.inl h3
        · simp only [List.mem_singleton] at h3
          subst h3
          exact Or.inr (List.mem_cons_self _ _)
      · exact Or.inr (List.mem_cons_of_mem _ h)

theorem resolveLoopFuel_inv (db : List AurInfo) :
    ∀ (fuel : Nat) (tv seen : List String) (infos : List AurInfo),
    (∀ i ∈ infos, i.name ∈ seen) → (infos.map AurInfo.name).Nodup →
    (∀ i ∈ infos, i ∈ db) →
    (∀ i ∈ resolveLoopFuel db fuel tv seen infos, i ∈ db) ∧
      ((resolveLoopFuel db fuel tv seen infos).map AurInfo.name).Nodup := by
  intro fuel
  induction fuel with
  | zero =>
    intro tv seen infos _ h2 h3
    simp only [resolveLoopFuel]
    exact ⟨h3, h2⟩
  | succ fuel ih =>
    intro tv seen infos h1 h2 h3
    cases tv with
    | nil =>
      simp only [resolveLoopFuel]
      exact ⟨h3, h2⟩
    | cons a rest0 =>
      simp only [resolveLoopFuel]
      by_cases hempty :
          (((a :: rest0).take 100).filter fun n => !(seen.contains n)).isEmpty = true
      · rw [if_pos hempty]
        exact ih _ seen infos h1 h2 h3
      · rw [if_neg hempty]
        have hfold := addFold_inv
          (fetchDb db (((a :: rest0).take 100).filter fun n => !(seen.contains n)))
          (seen, infos, []) h1 h2
        refine ih _ _ _ hfold.1 hfold.2.1 ?_
        intro i hi
        rcases hfold.2.2 i hi with h | h
        · exact h3 i h
        · exact (List.mem_filter.mp h).1

theorem resolve_infos_sub (db : List AurInfo) (roots : List String) :
    ∀ i ∈ resolve_infos db roots, i ∈ db :=
  (resolveLoopFuel_inv db (resolveFuel db roots) roots [] []
    (fun i hi => absurd hi (List.not_mem_nil i))
    List.nodup_nil
    (fun i hi => absurd hi (List.not_mem_nil i))).1

theorem resolve_infos_nodup (db : List AurInfo) (roots : List String) :
    ((resolve_infos db roots).map AurInfo.name).Nodup :=
  (resolveLoopFuel_inv db (resolveFuel db roots) roots [] []
    (fun i hi => absurd hi (List.not_mem_nil i))
    List.nodup_nil
    (fun i hi => absurd hi (List.not_mem_nil i))).2

/-! ## Fuel adequacy for the BFS loop

`resolveLoopFuel` carries fuel only to make the recursion structural.
The potential below (queue length plus the cost of every database
record whose name is not yet seen) strictly decreases at each
iteration, so any fuel at least the initial potential yields the same
result: the fuelled loop agrees with the unbounded loop of
`resolve_build_order`, and `resolveFuel` dominates the initial
potential. -/

def resolvePotential (db : List AurInfo) (tv seen : List String) : Nat :=
  tv.length +
    ((db.filter fun i => !(seen.contains i.name)).map
      fun i => 1 + (resolve_dep_names i).length).sum

theorem contains_append_or (l m : List String) (a : String) :
    (l ++ m).contains a = (l.contains a || m.contains a) := by
  induction l with
  | nil => simp
  | cons x t ih => simp [List.contains_cons, ih, Bool.or_assoc]

theorem toFinset_sum_le_map_sum (L : List AurInfo) (w : AurInfo → Nat) :
    L.toFinset.sum w ≤ (L.map w).sum := by
  induction L with
  | nil => simp
  | cons x xs ih =>
    by_cases hx : x ∈ xs.toFinset
    · simp only [List.toFinset_cons, Finset.insert_eq_self.mpr hx, List.map_cons,
        List.sum_cons]
      exact ih.trans (Nat.le_add_left _ _)
    · simp only [List.toFinset_cons, Finset.sum_insert hx, List.map_cons,
        List.sum_cons]
      exact Nat.add_le_add_left ih _

theorem nodup_map_sum_le (S L : List AurInfo) (w : AurInfo → Nat)
    (hnd : S.Nodup) (hsub : ∀ s ∈ S, s ∈ L) :
    (S.map w).sum ≤ (L.map w).sum := by
  have h2 : S.toFinset ⊆ L.toFinset := by
    intro a ha
    exact List.mem_toFinset.mpr (hsub a (List.mem_toFinset.mp ha))
  calc (S.map w).sum = S.toFinset.sum w := (List.sum_toFinset w hnd).symm
    _ ≤ L.toFinset.sum w := Finset.sum_le_sum_of_subset h2
    _ ≤ (L.map w).sum := toFinset_sum_le_map_sum L w

theorem sum_map_filter_split (L : List AurInfo) (q : AurInfo → Bool)
    (w : AurInfo → Nat) :
    (L.map w).sum =
      ((L.filter q).map w).sum + ((L.filter fun x => !(q x)).map w).sum := by
  induction L with
  | nil => rfl
  | cons x xs ih =>
    by_cases hq : q x = true
    · rw [List.filter_cons, List.filter_cons, if_pos hq, if_neg (by simp [hq])]
      simp only [List.map_cons, List.sum_cons]
      omega
    · rw [List.filter_cons, List.filter_cons, if_neg hq,
        if_pos (by simp [Bool.eq_false_iff.mpr hq])]
      simp only [List.map_cons, List.sum_cons]
      omega

theorem sum_map_one_add (S : List AurInfo) :
    (S.map fun i => 1 + (resolve_dep_names i).length).sum
      = S.length + (S.map fun s => (resolve_dep_names s).length).sum := by
  induction S with
  | nil => rfl
  | cons x xs ih =>
    simp only [List.map_cons, List.sum_cons, List.length_cons, ih]
    omega

theorem length_flatMap_deps (S : List AurInfo) :
    (S.flatMap resolve_dep_names).length
      = (S.map fun s => (resolve_dep_names s).length).sum := by
  induction S with
  | nil => rfl
  | cons x xs ih =>
    simp only [List.flatMap_cons, List.length_append, List.map_cons,
      List.sum_cons, ih]

theorem addFold_char (fetched : List AurInfo) :
    ∀ acc : List String × List AurInfo × List String,
    ∃ S : List AurInfo,
      (fetched.foldl addStep acc).1 = acc.1 ++ S.map AurInfo.name ∧
      (fetched.foldl addStep acc).2.1 = acc.2.1 ++ S ∧
      (fetched.foldl addStep acc).2.2 = acc.2.2 ++ S.flatMap resolve_dep_names ∧
      (S.map AurInfo.name).Nodup ∧
      (∀ s ∈ S, s ∈ fetched ∧ acc.1.contains s.name = false) := by
  induction fetched with
  | nil =>
    intro acc
    exact ⟨[], by simp, by simp, by simp, by simp,
      fun s hs => absurd hs (List.not_mem_nil s)⟩
  | cons info rest ih =>
    intro acc
    rw [List.foldl_cons]
    by_cases hc : acc.1.contains info.name = true
    · have hstep : addStep acc info = acc := by
        unfold addStep
        rw [if_pos hc]
      rw [hstep]
      obtain ⟨S, hS1, hS2, hS3, hSnd, hS5⟩ := ih acc
      exact ⟨S, hS1, hS2, hS3, hSnd,
        fun s hs => ⟨List.mem_cons_of_mem _ (hS5 s hs).1, (hS5 s hs).2⟩⟩
    · have hstep : addStep acc info =
        (acc.1 ++ [info.name], acc.2.1 ++ [info],
          acc.2.2 ++ resolve_dep_names info) := by
        unfold addStep
        rw [if_neg hc]
      rw [hstep]
      obtain ⟨S, hS1, hS2, hS3, hSnd, hS5⟩ := ih (acc.1 ++ [info.name],
        acc.2.1 ++ [info], acc.2.2 ++ resolve_dep_names info)
      refine ⟨info :: S, ?_, ?_, ?_, ?_, ?_⟩
      · rw [hS1]
        show (acc.1 ++ [info.name]) ++ S.map AurInfo.name
          = acc.1 ++ (info :: S).map AurInfo.name
        rw [List.append_assoc, List.map_cons, List.singleton_append]
      · rw [hS2]
        show (acc.2.1 ++ [info]) ++ S = acc.2.1 ++ (info :: S)
        rw [List.append_assoc, List.singleton_append]
      · rw [hS3]
        show (acc.2.2 ++ resolve_dep_names info) ++ S.flatMap resolve_dep_names
          = acc.2.2 ++ (info :: S).flatMap resolve_dep_names
        rw [List.append_assoc, List.flatMap_cons]
      · rw [List.map_cons, List.nodup_cons]
        refine ⟨?_, hSnd⟩
        intro hmem
        obtain ⟨s, hsS, hname⟩ := List.mem_map.mp hmem
        have h5b : (acc.1 ++ [info.name]).contains s.name = false := (hS5 s hsS).2
        rw [hname] at h5b
        have hmm : info.name ∈ acc.1 ++ [info.name] :=
          List.mem_append.mpr (Or.inr (List.mem_singleton.mpr rfl))
        have hcc : (acc.1 ++ [info.name]).contains info.name = true :=
          List.elem_eq_true_of_mem hmm
        rw [h5b] at hcc
        exact Bool.noConfusion hcc
      · intro s hs
        rcases List.mem_cons.mp hs with rfl | hsS
        · exact ⟨List.mem_cons_self _ _, Bool.eq_false_iff.mpr hc⟩
        · have h5 := hS5 s hsS
          have h52 : (acc.1 ++ [info.name]).contains s.name = false := h5.2
          refine ⟨List.mem_cons_of_mem _ h5.1, ?_⟩
          by_cases hsc : acc.1.contains s.name = true
          · exfalso
            have hmm : s.name ∈ acc.1 ++ [info.name] :=
              List.mem_append.mpr (Or.inl (List.mem_of_elem_eq_true hsc))
            have hcc : (acc.1 ++ [info.name]).contains s.name = true :=
              List.elem_eq_true_of_mem hmm
            rw [h52] at hcc
            exact Bool.noConfusion hcc
          · exact Bool.eq_false_iff.mpr hsc

theorem potential_seen_drop (db : List AurInfo) (seen : List String)
    (S : List AurInfo)
    (hSdb : ∀ s ∈ S, s ∈ db)
    (hSnew : ∀ s ∈ S, seen.contains s.name = false)
    (hSnd : (S.map AurInfo.name).Nodup) :
    ((db.filter fun i => !((seen ++ S.map AurInfo.name).contains i.name)).map
        fun i => 1 + (resolve_dep_names i).length).sum
      + (S.map fun i => 1 + (resolve_dep_names i).length).sum
      ≤ ((db.filter fun i => !(seen.contains i.name)).map
        fun i => 1 + (resolve_dep_names i).length).sum := by
  have hsplit := sum_map_filter_split (db.filter fun i => !(seen.contains i.name))
    (fun i => (S.map AurInfo.name).contains i.name)
    (fun i => 1 + (resolve_dep_names i).length)
  have hfeq : ((db.filter fun i => !(seen.contains i.name)).filter
      fun x => !((S.map AurInfo.name).contains x.name))
      = db.filter fun i => !((seen ++ S.map AurInfo.name).contains i.name) := by
    rw [List.filter_filter]
    apply List.filter_congr
    intro x _
    show (!((S.map AurInfo.name).contains x.name) && !(seen.contains x.name))
      = !((seen ++ S.map AurInfo.name).contains x.name)
    rw [contains_append_or, Bool.not_or]
    exact Bool.and_comm _ _
  have hSsub : ∀ s ∈ S, s ∈ (db.filter fun i => !(seen.contains i.name)).filter
      fun i => (S.map AurInfo.name).contains i.name := by
    intro s hs
    apply List.mem_filter.mpr
    refine ⟨List.mem_filter.mpr ⟨hSdb s hs, ?_⟩, ?_⟩
    · rw [hSnew s hs]
      rfl
    · exact List.elem_eq_true_of_mem (List.mem_map.mpr ⟨s, hs, rfl⟩)
  have hSle := nodup_map_sum_le S
    ((db.filter fun i => !(seen.contains i.name)).filter
      fun i => (S.map AurInfo.name).contains i.name)
    (fun i => 1 + (resolve_dep_names i).length)
    (List.Nodup.of_map AurInfo.name hSnd) hSsub
  rw [hfeq] at hsplit
  omega

theorem resolveLoopFuel_cons_eq (db : List AurInfo) (fuel : Nat) (a : String)
    (rest0 seen : List String) (infos : List AurInfo) :
    resolveLoopFuel db (fuel + 1) (a :: rest0) seen infos =
      if (((a :: rest0).take 100).filter fun n => !(seen.contains n)).isEmpty then
        resolveLoopFuel db fuel ((a :: rest0).drop 100) seen infos
      else
        resolveLoopFuel db fuel
          ((a :: rest0).drop 100 ++
            (addFetched (fetchDb db
                (((a :: rest0).take 100).filter fun n => !(seen.contains n)))
              seen infos).2.2)
          (addFetched (fetchDb db
              (((a :: rest0).take 100).filter fun n => !(seen.contains n)))
            seen infos).1
          (addFetched (fetchDb db
              (((a :: rest0).take 100).filter fun n => !(seen.contains n)))
            seen infos).2.1 := rfl

theorem resolveLoopFuel_stable (db : List AurInfo) :
    ∀ (fuel : Nat) (tv seen : List String) (infos : List AurInfo),
    resolvePotential db tv seen ≤ fuel →
    resolveLoopFuel db fuel tv seen infos =
      resolveLoopFuel db (fuel + 1) tv seen infos := by
  intro fuel
  induction fuel with
  | zero =>
    intro tv seen infos hpot
    cases tv with
    | nil => rfl
    | cons a r =>
      exfalso
      unfold resolvePotential at hpot
      rw [List.length_cons] at hpot
      omega
  | succ fuel ih =>
    intro tv seen infos hpot
    cases tv with
    | nil => rfl
    | cons a rest0 =>
      rw [resolveLoopFuel_cons_eq db fuel, resolveLoopFuel_cons_eq db (fuel + 1)]
      by_cases hempty :
          (((a :: rest0).take 100).filter fun n => !(seen.contains n)).isEmpty = true
      · rw [if_pos hempty, if_pos hempty]
        apply ih
        unfold resolvePotential at hpot ⊢
        rw [List.length_drop, List.length_cons]
        rw [List.length_cons] at hpot
        omega
      · rw [if_neg hempty, if_neg hempty]
        apply ih
        obtain ⟨S, hS1, hS2, hS3, hSnd, hSmem⟩ := addFold_char
          (fetchDb db (((a :: rest0).take 100).filter fun n => !(seen.contains n)))
          (seen, infos, [])
        simp only [addFetched]
        rw [hS1, hS3]
        show resolvePotential db
          ((a :: rest0).drop 100 ++ S.flatMap resolve_dep_names)
          (seen ++ S.map AurInfo.name) ≤ fuel
        have hdrop := potential_seen_drop db seen S
          (fun s hs => (List.mem_filter.mp (hSmem s hs).1).1)
          (fun s hs => (hSmem s hs).2)
          hSnd
        have hflat := length_flatMap_deps S
        have hcost := sum_map_one_add S
        unfold resolvePotential at hpot ⊢
        rw [List.length_append, List.length_drop, List.length_cons]
        rw [List.length_cons] at hpot
        omega

theorem resolveLoopFuel_add (db : List AurInfo) (tv seen : List String)
    (infos : List AurInfo) (f : Nat)
    (hpot : resolvePotential db tv seen ≤ f) :
    ∀ k, resolveLoopFuel db (f + k) tv seen infos
      = resolveLoopFuel db f tv seen infos := by
  intro k
  induction k with
  | zero => rfl
  | succ k ih =>
    have hstep := resolveLoopFuel_stable db (f + k) tv seen infos
      (le_trans hpot (Nat.le_add_right f k))
    calc resolveLoopFuel db (f + (k + 1)) tv seen infos
        = resolveLoopFuel db (f + k + 1) tv seen infos := by
          rw [← Nat.add_assoc]
      _ = resolveLoopFuel db (f + k) tv seen infos := hstep.symm
      _ = resolveLoopFuel db f tv seen infos := ih

theorem resolveLoopFuel_eq_of_le (db : List AurInfo) (tv seen : List String)
    (infos : List AurInfo) (f g : Nat)
    (hpot : resolvePotential db tv seen ≤ f) (hle : f ≤ g) :
    resolveLoopFuel db f tv seen infos = resolveLoopFuel db g tv seen infos := by
  obtain ⟨k, rfl⟩ := Nat.exists_eq_add_of_le hle
  exact (resolveLoopFuel_add db tv seen infos f hpot k).symm

/-- The fuel passed by `resolve_infos` suffices: every fuel at least
the initial potential produces the same info map, so the fuelled loop
computes exactly what the unbounded loop of `resolve_build_order`
computes. -/
theorem resolve_infos_fuel_independent (db : List AurInfo) (roots : List String)
    (fuel : Nat) (hpot : resolvePotential db roots [] ≤ fuel) :
    resolveLoopFuel db fuel roots [] [] = resolve_infos db roots := by
  have hstart : resolvePotential db roots [] ≤ resolveFuel db roots := by
    unfold resolvePotential resolveFuel
    have hfil : (db.filter fun i => !(([] : List String).contains i.name)) = db :=
      List.filter_eq_self.mpr fun a _ => rfl
    rw [hfil]
    omega
  have h1 := resolveLoopFuel_eq_of_le db roots [] [] fuel
    (max fuel (resolveFuel db roots)) hpot (le_max_left _ _)
  have h2 := resolveLoopFuel_eq_of_le db roots [] [] (resolveFuel db roots)
    (max fuel (resolveFuel db roots)) hstart (le_max_right _ _)
  unfold resolve_infos
  rw [h1, h2]

theorem graphEdges_wf (infos : List AurInfo) :
    ∀ e ∈ graphEdges infos,
      e.1 ∈ infos.map AurInfo.name ∧ e.2 ∈ infos.map AurInfo.name := by
  intro e he
  unfold graphEdges at he
  rw [List.mem_flatMap] at he
  obtain ⟨info, hinfo, hmem⟩ := he
  rw [List.mem_filterMap] at hmem
  obtain ⟨d, _, hif⟩ := hmem
  by_cases hany : (infos.any fun j => j.name = d) = true
  · rw [if_pos hany] at hif
    injection hif with hif
    subst hif
    constructor
    · obtain ⟨j, hj, hjd⟩ := List.any_eq_true.mp hany
      simp only [decide_eq_true_eq] at hjd
      exact List.mem_map.mpr ⟨j, hj, hjd⟩
    · exact List.mem_map.mpr ⟨info, hinfo, rfl⟩
  · rw [if_neg hany] at hif
    exact Option.noConfusion hif

/-! ## Resolver-level helpers -/

theorem names_any_of_mem (infos : List AurInfo) (n : String)
    (h : n ∈ infos.map AurInfo.name) :
    (infos.any fun i => i.name == n) = true := by
  obtain ⟨i, hi, hname⟩ := List.mem_map.mp h
  exact List.any_eq_true.mpr ⟨i, hi, by simp [hname]⟩

theorem resolve_filters_id (db : List AurInfo) (σ : List String → List String)
    (roots : List String) (hσ : ∀ l : List String, (σ l).Perm l)
    (ord : List String)
    (htopo : toposort (graphEdges (resolve_infos db roots))
      (σ ((resolve_infos db roots).map AurInfo.name)) = .ok ord) :
    ((ord.filter fun n => roots.contains n ||
        (resolve_infos db roots).any fun i => i.name == n).filter
      fun n => (resolve_infos db roots).any fun i => i.name == n) = ord := by
  have hperm := kahnAux_ok_perm (graphEdges (resolve_infos db roots)) _ _ ord
    (Nat.le_refl _) htopo
  have hmem : ∀ n ∈ ord, n ∈ (resolve_infos db roots).map AurInfo.name := by
    intro n hn
    exact (hσ _).mem_iff.mp (hperm.mem_iff.mp hn)
  have hq : ∀ n ∈ ord,
      ((resolve_infos db roots).any fun i => i.name == n) = true :=
    fun n hn => names_any_of_mem _ n (hmem n hn)
  have h1 : (ord.filter fun n => roots.contains n ||
      (resolve_infos db roots).any fun i => i.name == n) = ord := by
    rw [List.filter_eq_self]
    intro n hn
    rw [hq n hn]
    simp
  rw [h1, List.filter_eq_self]
  exact hq

theorem resolve_toposort_ok (db : List AurInfo) (σ : List String → List String)
    (roots : List String) (hσ : ∀ l : List String, (σ l).Perm l)
    (ord : List String) :
    resolve_build_order db σ roots = .ok ord ↔
      toposort (graphEdges (resolve_infos db roots))
        (σ ((resolve_infos db roots).map AurInfo.name)) = .ok ord := by
  simp only [resolve_build_order]
  cases htopo : toposort (graphEdges (resolve_infos db roots))
      (σ ((resolve_infos db roots).map AurInfo.name)) with
  | ok ord0 =>
    simp only [Except.map, Except.ok.injEq]
    have := resolve_filters_id db σ roots hσ ord0 htopo
    rw [this]
  | error e =>
    simp only [Except.map]

theorem resolve_toposort_error (db : List AurInfo)
    (σ : List String → List String) (roots : List String) (c : String) :
    resolve_build_order db σ roots = .error c ↔
      toposort (graphEdges (resolve_infos db roots))
        (σ ((resolve_infos db roots).map AurInfo.name)) = .error c := by
  simp only [resolve_build_order]
  cases htopo : toposort (graphEdges (resolve_infos db roots))
      (σ ((resolve_infos db roots).map AurInfo.name)) with
  | ok ord0 =>
    simp only [Except.map]
    exact ⟨fun h => Except.noConfusion h, fun h => Except.noConfusion h⟩
  | error e =>
    simp only [Except.map]

theorem resolve_nodes_nodup (db : List AurInfo)
    (σ : List String → List String) (roots : List String)
    (hσ : ∀ l : List String, (σ l).Perm l) :
    (σ ((resolve_infos db roots).map AurInfo.name)).Nodup :=
  (hσ _).symm.nodup (resolve_infos_nodup db roots)

theorem resolve_edges_wf (db : List AurInfo) (σ : List String → List String)
    (roots : List String) (hσ : ∀ l : List String, (σ l).Perm l) :
    ∀ e ∈ graphEdges (resolve_infos db roots),
      e.1 ∈ σ ((resolve_infos db roots).map AurInfo.name) ∧
        e.2 ∈ σ ((resolve_infos db roots).map AurInfo.name) := by
  intro e he
  obtain ⟨h1, h2⟩ := graphEdges_wf _ e he
  exact ⟨(hσ _).mem_iff.mpr h1, (hσ _).mem_iff.mpr h2⟩

theorem resolve_ok_order (db : List AurInfo) (σ : List String → List String)
    (roots : List String) (hσ : ∀ l : List String, (σ l).Perm l)
    (ord : List String) (hok : resolve_build_order db σ roots = .ok ord) :
    ∀ e ∈ graphEdges (resolve_infos db roots),
      ord.indexOf e.1 < ord.indexOf e.2 := by
  intro e he
  have htopo := (resolve_toposort_ok db σ roots hσ ord).mp hok
  obtain ⟨h1, h2⟩ := resolve_edges_wf db σ roots hσ e he
  exact kahnAux_ok_order (graphEdges (resolve_infos db roots)) _ _ ord
    (Nat.le_refl _) (resolve_nodes_nodup db σ roots hσ) htopo e.1 e.2 he h1 h2

theorem resolve_error_onCycle (db : List AurInfo)
    (σ : List String → List String) (roots : List String)
    (hσ : ∀ l : List String, (σ l).Perm l) (c : String)
    (herr : resolve_build_order db σ roots = .error c) :
    c ∈ (resolve_infos db roots).map AurInfo.name ∧
      OnCycle (graphEdges (resolve_infos db roots)) c := by
  have htopo := (resolve_toposort_error db σ roots c).mp herr
  obtain ⟨hc, hcyc⟩ := kahnAux_error (graphEdges (resolve_infos db roots)) _ _ c
    (Nat.le_refl _) htopo
  exact ⟨(hσ _).mem_iff.mp hc, hcyc⟩

theorem resolve_error_iff_cycle (db : List AurInfo)
    (σ : List String → List String) (roots : List String)
    (hσ : ∀ l : List String, (σ l).Perm l) :
    (∃ c, resolve_build_order db σ roots = .error c) ↔
      HasCycle (graphEdges (resolve_infos db roots)) := by
  constructor
  · rintro ⟨c, herr⟩
    exact ⟨c, (resolve_error_onCycle db σ roots hσ c herr).2⟩
  · intro hcyc
    cases hres : resolve_build_order db σ roots with
    | error c => exact ⟨c, rfl⟩
    | ok ord =>
      exfalso
      obtain ⟨c, m, hm, hwalk⟩ := hcyc
      have horder : ∀ u v : String,
          (u, v) ∈ graphEdges (resolve_infos db roots) →
          ord.indexOf u < ord.indexOf v := by
        intro u v huv
        exact resolve_ok_order db σ roots hσ ord hres (u, v) huv
      exact absurd (walkN_indexOf _ ord horder m c c hwalk hm) (lt_irrefl _)

/-! ## Claims about the resolver -/

/-- C1.  Over the database model of the metadata source and any hash-map
iteration order `σ` (a permutation of the collected names): when
`resolve_build_order` returns an order, every edge of the constructed
graph has its dependency strictly before its dependent; it fails if and
only if the constructed dependency graph has a directed cycle; and the
error names a graph node that lies on a cycle. -/
theorem resolve_build_order_spec (db : List AurInfo)
    (σ : List String → List String) (roots : List String)
    (hσ : ∀ l : List String, (σ l).Perm l) :
    (∀ ord, resolve_build_order db σ roots = .ok ord →
      ∀ e ∈ graphEdges (resolve_infos db roots),
        ord.indexOf e.1 < ord.indexOf e.2) ∧
    ((∃ c, resolve_build_order db σ roots = .error c) ↔
      HasCycle (graphEdges (resolve_infos db roots))) ∧
    (∀ c, resolve_build_order db σ roots = .error c →
      c ∈ (resolve_infos db roots).map AurInfo.name ∧
        OnCycle (graphEdges (resolve_infos db roots)) c) := by
  refine ⟨?_, resolve_error_iff_cycle db σ roots hσ, ?_⟩
  · intro ord hok
    exact resolve_ok_order db σ roots hσ ord hok
  · intro c herr
    exact resolve_error_onCycle db σ roots hσ c herr

/-- A three-package chain: A depends on B, B depends on C; C also names
a dependency `zlib` that the metadata source never returns. -/
def dbChain : List AurInfo :=
  [{ name := "A", pkgbase := "A", version := "1", depends := some ["B"],
     makedepends := none, checkdepends := none },
   { name := "B", pkgbase := "B", version := "1", depends := some ["C"],
     makedepends := none, checkdepends := none },
   { name := "C", pkgbase := "C", version := "1", depends := some ["zlib>=1.2"],
     makedepends := none, checkdepends := none }]

/-- Witness for C1: on the concrete chain database the resolver returns
`[C, B, A]`, and the theorem instance places the dependency `C` before
its dependent `B` in that output. -/
theorem resolve_build_order_spec_witness :
    resolve_build_order dbChain id ["A"] = .ok ["C", "B", "A"] ∧
    ["C", "B", "A"].indexOf "C" < ["C", "B", "A"].indexOf "B" := by
  refine ⟨by decide, ?_⟩
  exact (resolve_build_order_spec dbChain id ["A"]
    (fun l => List.Perm.refl l)).1 ["C", "B", "A"] (by decide)
    ("C", "B") (by decide)

/-- C2.  A name the metadata source never returns is never a graph node
nor an edge endpoint: the node list is a permutation of the result-map
keys (and omits the name), every edge endpoint is a result-map key
different from the name, any returned order only contains result-map
keys, and resolution still succeeds (some order is returned) whenever
the graph over the returned records is acyclic. -/
theorem resolver_drops_unknown (db : List AurInfo)
    (σ : List String → List String) (roots : List String) (x : String)
    (hσ : ∀ l : List String, (σ l).Perm l)
    (hx : ∀ i ∈ db, i.name ≠ x) :
    (x ∉ (resolve_infos db roots).map AurInfo.name) ∧
    (x ∉ σ ((resolve_infos db roots).map AurInfo.name)) ∧
    ((σ ((resolve_infos db roots).map AurInfo.name)).Perm
      ((resolve_infos db roots).map AurInfo.name)) ∧
    (∀ e ∈ graphEdges (resolve_infos db roots),
      e.1 ∈ (resolve_infos db roots).map AurInfo.name ∧
      e.2 ∈ (resolve_infos db roots).map AurInfo.name ∧
      e.1 ≠ x ∧ e.2 ≠ x) ∧
    (∀ ord, resolve_build_order db σ roots = .ok ord →
      ∀ n ∈ ord, n ∈ (resolve_infos db roots).map AurInfo.name) ∧
    (¬ HasCycle (graphEdges (resolve_infos db roots)) →
      ∃ ord, resolve_build_order db σ roots = .ok ord) := by
  have hnotin : x ∉ (resolve_infos db roots).map AurInfo.name := by
    intro hmem
    obtain ⟨i, hi, hname⟩ := List.mem_map.mp hmem
    exact hx i (resolve_infos_sub db roots i hi) hname
  refine ⟨hnotin, ?_, hσ _, ?_, ?_, ?_⟩
  · intro hmem
    exact hnotin ((hσ _).mem_iff.mp hmem)
  · intro e he
    obtain ⟨h1, h2⟩ := graphEdges_wf _ e he
    refine ⟨h1, h2, ?_, ?_⟩
    · intro hex
      rw [hex] at h1
      exact hnotin h1
    · intro hex
      rw [hex] at h2
      exact hnotin h2
  · intro ord hok n hn
    have htopo := (resolve_toposort_ok db σ roots hσ ord).mp hok
    have hperm := kahnAux_ok_perm (graphEdges (resolve_infos db roots)) _ _ ord
      (Nat.le_refl _) htopo
    exact (hσ _).mem_iff.mp (hperm.mem_iff.mp hn)
  · intro hnocyc
    cases hres : resolve_build_order db σ roots with
    | ok ord => exact ⟨ord, rfl⟩
    | error c =>
      exact absurd ((resolve_error_iff_cycle db σ roots hσ).mp ⟨c, hres⟩) hnocyc

/-- Witness for C2: on the chain database, `zlib` (declared by `C` but
never returned by the source) is not a node, and resolution still
succeeds for the rest. -/
theorem resolver_drops_unknown_witness :
    ("zlib" ∉ (resolve_infos dbChain ["A"]).map AurInfo.name) ∧
    (¬ HasCycle (graphEdges (resolve_infos dbChain ["A"])) →
      ∃ ord, resolve_build_order dbChain id ["A"] = .ok ord) := by
  have h := resolver_drops_unknown dbChain id ["A"] "zlib"
    (fun l => List.Perm.refl l) (by decide)
  exact ⟨h.1, h.2.2.2.2.2⟩

/-- Two packages with no dependency relation between them. -/
def dbSiblings : List AurInfo :=
  [{ name := "A", pkgbase := "A", version := "1", depends := none,
     makedepends := none, checkdepends := none },
   { name := "B", pkgbase := "B", version := "1", depends := none,
     makedepends := none, checkdepends := none }]

/-- C9 counterexample: the same root set against the same unchanged
database yields different ordered outputs under two legitimate hash-map
iteration orders (the identity, and reversal — both permutations), so
two runs need not agree element for element on packages with no
dependency relation. -/
theorem resolve_tiebreak_cex :
    resolve_build_order dbSiblings id ["A", "B"] = .ok ["A", "B"] ∧
    resolve_build_order dbSiblings List.reverse ["A", "B"] = .ok ["B", "A"] ∧
    (List.reverse ["A", "B"]).Perm ["A", "B"] ∧
    resolve_build_order dbSiblings id ["A", "B"] ≠
      resolve_build_order dbSiblings List.reverse ["A", "B"] := by
  refine ⟨by decide, by decide, by decide, by decide⟩

/-- C9 (amended).  Two runs over the same unchanged metadata agree on
success versus failure, and on success the two ordered outputs contain
exactly the same package names (each is a permutation of the other);
element-for-element identity holds only up to the unspecified hash-map
iteration order, so the relative order of packages with no dependency
relation may differ between runs. -/
theorem resolve_deterministic_upto_tiebreak (db : List AurInfo)
    (roots : List String) (σ₁ σ₂ : List String → List String)
    (h₁ : ∀ l : List String, (σ₁ l).Perm l)
    (h₂ : ∀ l : List String, (σ₂ l).Perm l) :
    ((∃ c, resolve_build_order db σ₁ roots = .error c) ↔
      (∃ c, resolve_build_order db σ₂ roots = .error c)) ∧
    (∀ o₁ o₂, resolve_build_order db σ₁ roots = .ok o₁ →
      resolve_build_order db σ₂ roots = .ok o₂ → o₁.Perm o₂) := by
  constructor
  · rw [resolve_error_iff_cycle db σ₁ roots h₁,
      resolve_error_iff_cycle db σ₂ roots h₂]
  · intro o₁ o₂ hok₁ hok₂
    have ht₁ := (resolve_toposort_ok db σ₁ roots h₁ o₁).mp hok₁
    have ht₂ := (resolve_toposort_ok db σ₂ roots h₂ o₂).mp hok₂
    have hp₁ := kahnAux_ok_perm (graphEdges (resolve_infos db roots)) _ _ o₁
      (Nat.le_refl _) ht₁
    have hp₂ := kahnAux_ok_perm (graphEdges (resolve_infos db roots)) _ _ o₂
      (Nat.le_refl _) ht₂
    exact (hp₁.trans (h₁ _)).trans ((hp₂.trans (h₂ _)).symm)

/-- Witness for C9 (amended): the two sibling runs above agree on
success and their outputs are permutations of each other. -/
theorem resolve_deterministic_upto_tiebreak_witness :
    ((["A", "B"] : List String).Perm ["B", "A"]) ∧
    ((∃ c, resolve_build_order dbSiblings id ["A", "B"] = .error c) ↔
      (∃ c, resolve_build_order dbSiblings List.reverse ["A", "B"] =
        .error c)) := by
  have h := resolve_deterministic_upto_tiebreak dbSiblings ["A", "B"]
    id List.reverse (fun l => List.Perm.refl l)
    (fun l => List.reverse_perm l)
  exact ⟨h.2 ["A", "B"] ["B", "A"] (by decide) (by decide), h.1⟩

/-! ## GitHub mirror fetch loop (src/aur.rs:176-244)

`github_fetch_infos` is embedded with its per-branch fetch abstracted as
an oracle `F : String → Except FetchErr (List AurInfo)` (in the program,
`fetch_branch_srcinfo` applied to the HTTP client and the raw base).
The `attempts` hash map only ever stores the values 0 and 1, and an
entry reaches 1 exactly when its package is re-queued; it is embedded as
the list `attempted` of re-queued packages, appended in re-queue
order. -/

/-- Generic association-list insert-or-replace (`HashMap::insert`). -/
def upsert {α : Type} (m : List (String × α)) (k : String) (v : α) :
    List (String × α) :=
  if (m.lookup k).isSome then
    m.map fun kv => if kv.1 = k then (k, v) else kv
  else m ++ [(k, v)]

/-- Generic `HashMap::entry(k).or_insert(v)`. -/
def orInsert {α : Type} (m : List (String × α)) (k : String) (v : α) :
    List (String × α) :=
  if (m.lookup k).isSome then m else m ++ [(k, v)]

/-- Insertion sort on strings, embedding the `sort` on
`branches_to_fetch`. -/
def insertSorted (x : String) : List String → List String
  | [] => [x]
  | y :: ys => if x ≤ y then x :: y :: ys else y :: insertSorted x ys

def sortStrings (l : List String) : List String := l.foldr insertSorted []

/-- `Vec::dedup`: collapse adjacent duplicates. -/
def dedupAdj : List String → List String
  | [] => []
  | [x] => [x]
  | x :: y :: rest =>
    if x = y then dedupAdj (y :: rest) else x :: dedupAdj (y :: rest)

/-- Embeds `fetch_branches_parallel` (src/aur.rs:246-259): each branch is
fetched independently and the results are collected in order; any
branch error fails the whole batch. -/
def fetchBranchesSeq (F : String → Except FetchErr (List AurInfo)) :
    List String → Except FetchErr (List (String × List AurInfo))
  | [] => .ok []
  | b :: rest =>
    match F b with
    | .ok entries =>
      match fetchBranchesSeq F rest with
      | .ok tl => .ok ((b, entries) :: tl)
      | .error e => .error e
    | .error e => .error e

/-- The state of the `github_fetch_infos` loop. -/
structure GhState where
  queue : List String
  attempted : List String
  cache : List (String × List AurInfo)
  p2b : List (String × String)
  results : List (String × AurInfo)
deriving Repr

/-- The cache/name-map merge after a fetch batch (src/aur.rs:210-217):
for each fetched `(branch, entries)` pair, every entry name is mapped to
its pkgbase (first write wins), and the branch is cached. -/
def ghInsertFetched (fetched : List (String × List AurInfo))
    (cache : List (String × List AurInfo)) (p2b : List (String × String)) :
    List (String × List AurInfo) × List (String × String) :=
  fetched.foldl
    (fun acc bf =>
      (upsert acc.1 bf.1 bf.2,
        bf.2.foldl (fun m info => orInsert m info.name info.pkgbase) acc.2))
    (cache, p2b)

/-- The per-package pass of one loop iteration (src/aur.rs:220-240):
resolve the package through the name-map and the branch cache; a found
record goes to the results; an unresolved package is re-queued exactly
when its attempts counter is still 0. -/
def ghPkgStep (acc : GhState) (pkg : String) : GhState :=
  if (acc.results.lookup pkg).isSome then acc
  else
    let branch := (acc.p2b.lookup pkg).getD pkg
    match acc.cache.lookup branch with
    | some entries =>
      match entries.find? (fun info => info.name == pkg) with
      | some info => { acc with results := acc.results ++ [(pkg, info)] }
      | none =>
        if acc.attempted.contains pkg then acc
        else { acc with
          attempted := acc.attempted ++ [pkg]
          queue := acc.queue ++ [pkg] }
    | none =>
      if acc.attempted.contains pkg then acc
      else { acc with
        attempted := acc.attempted ++ [pkg]
        queue := acc.queue ++ [pkg] }

/-- One iteration of the `while !queue.is_empty()` loop
(src/aur.rs:187-241): drain up to 100 names, drop resolved ones, fetch
the distinct uncached candidate branches, merge, then process each
drained package. -/
def ghIter (F : String → Except FetchErr (List AurInfo)) (st : GhState) :
    Except FetchErr GhState :=
  let chunk0 := st.queue.take 100
  let rest := st.queue.drop 100
  let chunk := chunk0.filter fun pkg => !(st.results.lookup pkg).isSome
  if chunk.isEmpty then .ok { st with queue := rest }
  else
    let branches := dedupAdj (sortStrings
      ((chunk.map fun pkg => (st.p2b.lookup pkg).getD pkg).filter
        fun b => !(st.cache.lookup b).isSome))
    match fetchBranchesSeq F branches with
    | .error e => .error e
    | .ok fetched =>
      let merged := ghInsertFetched fetched st.cache st.p2b
      .ok (chunk.foldl ghPkgStep
        { st with queue := rest, cache := merged.1, p2b := merged.2 })

/-- The loop with fuel; `none` means the fuel ran out (the sufficiency
theorem shows it never does at the fuel `github_fetch_infos` uses). -/
def ghLoop (F : String → Except FetchErr (List AurInfo)) :
    Nat → GhState → Option (Except FetchErr GhState)
  | 0, st => if st.queue.isEmpty then some (.ok st) else none
  | fuel + 1, st =>
    if st.queue.isEmpty then some (.ok st)
    else
      match ghIter F st with
      | .error e => some (.error e)
      | .ok st2 => ghLoop F fuel st2

/-- Each queued package costs one budget unit, plus one more if it may
still be re-queued. -/
def ghMeasure (st : GhState) : Nat :=
  st.queue.length +
    (st.queue.filter fun p => !(st.attempted.contains p)).length

def ghInit (names : List String) : GhState :=
  { queue := names, attempted := [], cache := [], p2b := [], results := [] }

/-- Embeds `github_fetch_infos` (src/aur.rs:176-244) over the branch
oracle. -/
def github_fetch_infos (F : String → Except FetchErr (List AurInfo))
    (names : List String) : Option (Except FetchErr (List (String × AurInfo))) :=
  (ghLoop F (ghMeasure (ghInit names) + 1) (ghInit names)).map
    (Except.map fun st => st.results)

/-! ## Invariants of the mirror fetch loop -/

theorem lookup_mem {α : Type} (m : List (String × α)) (k : String) (v : α)
    (h : m.lookup k = some v) : (k, v) ∈ m := by
  induction m with
  | nil => exact absurd h (by simp)
  | cons kv rest ih =>
    by_cases hk : k = kv.1
    · have hb : (k == kv.1) = true := by simp [hk]
      simp only [List.lookup, hb] at h
      injection h with h
      have hkv : (k, v) = kv := by
        rw [hk, ← h]
      rw [hkv]
      exact List.mem_cons_self _ _
    · have hb : (k == kv.1) = false := by simp [hk]
      simp only [List.lookup, hb] at h
      exact List.mem_cons_of_mem _ (ih h)

theorem upsert_mem {α : Type} (m : List (String × α)) (k : String) (v : α) :
    ∀ bf ∈ upsert m k v, bf ∈ m ∨ bf = (k, v) := by
  intro bf hbf
  unfold upsert at hbf
  by_cases hs : (m.lookup k).isSome
  · rw [if_pos hs] at hbf
    obtain ⟨kv, hkv, heq⟩ := List.mem_map.mp hbf
    by_cases hk : kv.1 = k
    · rw [if_pos hk] at heq
      exact Or.inr heq.symm
    · rw [if_neg hk] at heq
      exact Or.inl (heq ▸ hkv)
  · rw [if_neg hs] at hbf
    rcases List.mem_append.mp hbf with h | h
    · exact Or.inl h
    · exact Or.inr (List.mem_singleton.mp h)

theorem fetchBranchesSeq_ok_mem (F : String → Except FetchErr (List AurInfo)) :
    ∀ (bs : List String) (fetched : List (String × List AurInfo)),
    fetchBranchesSeq F bs = .ok fetched →
    ∀ bf ∈ fetched, F bf.1 = .ok bf.2 := by
  intro bs
  induction bs with
  | nil =>
    intro fetched h bf hbf
    simp only [fetchBranchesSeq, Except.ok.injEq] at h
    rw [← h] at hbf
    exact absurd hbf (List.not_mem_nil bf)
  | cons b rest ih =>
    intro fetched h bf hbf
    simp only [fetchBranchesSeq] at h
    cases hF : F b with
    | ok entries =>
      rw [hF] at h
      cases hrec : fetchBranchesSeq F rest with
      | ok tl =>
        rw [hrec] at h
        simp only [Except.ok.injEq] at h
        rw [← h] at hbf
        rcases List.mem_cons.mp hbf with rfl | hmem
        · exact hF
        · exact ih tl hrec bf hmem
      | error e =>
        rw [hrec] at h
        exact Except.noConfusion h
    | error e =>
      rw [hF] at h
      exact Except.noConfusion h

theorem fetchBranchesSeq_total (F : String → Except FetchErr (List AurInfo))
    (Hok : ∀ b, ∃ l, F b = .ok l) :
    ∀ bs : List String, ∃ fetched, fetchBranchesSeq F bs = .ok fetched := by
  intro bs
  induction bs with
  | nil => exact ⟨[], rfl⟩
  | cons b rest ih =>
    obtain ⟨l, hl⟩ := Hok b
    obtain ⟨tl, htl⟩ := ih
    refine ⟨(b, l) :: tl, ?_⟩
    simp only [fetchBranchesSeq, hl, htl]

theorem ghInsertFetched_cache_mem :
    ∀ (fetched : List (String × List AurInfo))
      (cache : List (String × List AurInfo)) (p2b : List (String × String)),
    ∀ bf ∈ (ghInsertFetched fetched cache p2b).1, bf ∈ cache ∨ bf ∈ fetched := by
  intro fetched
  induction fetched with
  | nil =>
    intro cache p2b bf hbf
    exact Or.inl hbf
  | cons hd tl ih =>
    intro cache p2b bf hbf
    unfold ghInsertFetched at hbf
    rw [List.foldl_cons] at hbf
    have := ih (upsert cache hd.1 hd.2)
      (hd.2.foldl (fun m info => orInsert m info.name info.pkgbase) p2b) bf
      (by exact hbf)
    rcases this with h | h
    · rcases upsert_mem cache hd.1 hd.2 bf h with h2 | h2
      · exact Or.inl h2
      · exact Or.inr (by rw [h2]; exact List.mem_cons_self _ _)
    · exact Or.inr (List.mem_cons_of_mem _ h)

theorem ghPkgStep_structural (st : GhState) (pkg : String) :
    (ghPkgStep st pkg).cache = st.cache ∧
    (ghPkgStep st pkg).p2b = st.p2b ∧
    ((ghPkgStep st pkg).queue = st.queue ∧
        (ghPkgStep st pkg).attempted = st.attempted ∨
      pkg ∉ st.attempted ∧
        (ghPkgStep st pkg).queue = st.queue ++ [pkg] ∧
        (ghPkgStep st pkg).attempted = st.attempted ++ [pkg]) := by
  unfold ghPkgStep
  by_cases h1 : (st.results.lookup pkg).isSome
  · rw [if_pos h1]
    exact ⟨by trivial, by trivial, Or.inl ⟨by trivial, by trivial⟩⟩
  · rw [if_neg h1]
    cases hcl : st.cache.lookup ((st.p2b.lookup pkg).getD pkg) with
    | some entries =>
      simp only [hcl]
      cases hfind : entries.find? (fun info => info.name == pkg) with
      | some info =>
        simp only [hfind]
        exact ⟨by trivial, by trivial, Or.inl ⟨by trivial, by trivial⟩⟩
      | none =>
        simp only [hfind]
        by_cases hatt : st.attempted.contains pkg = true
        · rw [if_pos hatt]
          exact ⟨by trivial, by trivial, Or.inl ⟨by trivial, by trivial⟩⟩
        · rw [if_neg hatt]
          refine ⟨by trivial, by trivial, Or.inr ⟨?_, by trivial, by trivial⟩⟩
          intro hmem
          exact hatt (List.elem_eq_true_of_mem hmem)
    | none =>
      simp only [hcl]
      by_cases hatt : st.attempted.contains pkg = true
      · rw [if_pos hatt]
        exact ⟨by trivial, by trivial, Or.inl ⟨by trivial, by trivial⟩⟩
      · rw [if_neg hatt]
        refine ⟨by trivial, by trivial, Or.inr ⟨?_, by trivial, by trivial⟩⟩
        intro hmem
        exact hatt (List.elem_eq_true_of_mem hmem)

theorem ghFold_structural (chunk : List String) :
    ∀ st : GhState, ∃ A : List String,
      (chunk.foldl ghPkgStep st).queue = st.queue ++ A ∧
      (chunk.foldl ghPkgStep st).attempted = st.attempted ++ A ∧
      (chunk.foldl ghPkgStep st).cache = st.cache ∧
      (chunk.foldl ghPkgStep st).p2b = st.p2b ∧
      A.Nodup ∧
      (∀ a ∈ A, a ∈ chunk ∧ a ∉ st.attempted) := by
  induction chunk with
  | nil =>
    intro st
    exact ⟨[], by simp, by simp, rfl, rfl, List.nodup_nil, by simp⟩
  | cons pkg rest ih =>
    intro st
    rw [List.foldl_cons]
    obtain ⟨hc, hp, hqa⟩ := ghPkgStep_structural st pkg
    obtain ⟨A1, hq1, ha1, hc1, hp1, hnd1, hel1⟩ := ih (ghPkgStep st pkg)
    rcases hqa with ⟨hq0, ha0⟩ | ⟨hnot, hq0, ha0⟩
    · refine ⟨A1, ?_, ?_, hc1.trans hc, hp1.trans hp, hnd1, ?_⟩
      · rw [hq1, hq0]
      · rw [ha1, ha0]
      · intro a ha
        obtain ⟨h1, h2⟩ := hel1 a ha
        rw [ha0] at h2
        exact ⟨List.mem_cons_of_mem _ h1, h2⟩
    · refine ⟨pkg :: A1, ?_, ?_, hc1.trans hc, hp1.trans hp, ?_, ?_⟩
      · rw [hq1, hq0, List.append_assoc]
        rfl
      · rw [ha1, ha0, List.append_assoc]
        rfl
      · rw [List.nodup_cons]
        refine ⟨?_, hnd1⟩
        intro hmem
        obtain ⟨_, h2⟩ := hel1 pkg hmem
        rw [ha0] at h2
        exact h2 (List.mem_append.mpr (Or.inr (List.mem_singleton.mpr rfl)))
      · intro a ha
        rcases List.mem_cons.mp ha with rfl | ha2
        · exact ⟨List.mem_cons_self _ _, hnot⟩
        · obtain ⟨h1, h2⟩ := hel1 a ha2
          rw [ha0] at h2
          refine ⟨List.mem_cons_of_mem _ h1, ?_⟩
          intro hmem
          exact h2 (List.mem_append.mpr (Or.inl hmem))

theorem lookup_none_of_keys_ne {α : Type} (m : List (String × α)) (n : String)
    (h : ∀ kv ∈ m, kv.1 ≠ n) : m.lookup n = none := by
  cases hl : m.lookup n with
  | none => rfl
  | some v => exact absurd rfl (h (n, v) (lookup_mem m n v hl))

theorem ghPkgStep_semantic (F : String → Except FetchErr (List AurInfo))
    (n : String) (Hn : ∀ b l, F b = .ok l → ∀ i ∈ l, i.name ≠ n)
    (st : GhState) (pkg : String)
    (hc : ∀ bf ∈ st.cache, F bf.1 = .ok bf.2)
    (hr : ∀ kv ∈ st.results, kv.1 ≠ n) :
    (∀ kv ∈ (ghPkgStep st pkg).results, kv.1 ≠ n) ∧
    (pkg = n → n ∈ (ghPkgStep st pkg).queue ∨ n ∈ (ghPkgStep st pkg).attempted) := by
  have hrn : st.results.lookup n = none := lookup_none_of_keys_ne st.results n hr
  unfold ghPkgStep
  by_cases h1 : (st.results.lookup pkg).isSome
  · rw [if_pos h1]
    refine ⟨hr, ?_⟩
    rintro rfl
    rw [hrn] at h1
    exact absurd h1 (by simp)
  · rw [if_neg h1]
    cases hcl : st.cache.lookup ((st.p2b.lookup pkg).getD pkg) with
    | some entries =>
      simp only [hcl]
      have hcache := hc _ (lookup_mem st.cache _ entries hcl)
      cases hfind : entries.find? (fun info => info.name == pkg) with
      | some info =>
        simp only [hfind]
        have hinfopkg : info.name = pkg := by
          have := List.find?_some hfind
          simpa using this
        have hinfomem := List.mem_of_find?_eq_some hfind
        have hpkgn : pkg ≠ n := by
          rintro rfl
          exact Hn _ _ hcache info hinfomem hinfopkg
        constructor
        · intro kv hkv
          rcases List.mem_append.mp hkv with h2 | h2
          · exact hr kv h2
          · rw [List.mem_singleton.mp h2]
            exact hpkgn
        · rintro rfl
          exact absurd rfl hpkgn
      | none =>
        simp only [hfind]
        by_cases hatt : st.attempted.contains pkg = true
        · rw [if_pos hatt]
          refine ⟨hr, ?_⟩
          rintro rfl
          exact Or.inr (List.mem_of_elem_eq_true hatt)
        · rw [if_neg hatt]
          refine ⟨hr, ?_⟩
          rintro rfl
          exact Or.inl (List.mem_append.mpr (Or.inr (List.mem_singleton.mpr rfl)))
    | none =>
      simp only [hcl]
      by_cases hatt : st.attempted.contains pkg = true
      · rw [if_pos hatt]
        refine ⟨hr, ?_⟩
        rintro rfl
        exact Or.inr (List.mem_of_elem_eq_true hatt)
      · rw [if_neg hatt]
        refine ⟨hr, ?_⟩
        rintro rfl
        exact Or.inl (List.mem_append.mpr (Or.inr (List.mem_singleton.mpr rfl)))

theorem ghFold_semantic (F : String → Except FetchErr (List AurInfo))
    (n : String) (Hn : ∀ b l, F b = .ok l → ∀ i ∈ l, i.name ≠ n) :
    ∀ (chunk : List String) (st : GhState),
    (∀ bf ∈ st.cache, F bf.1 = .ok bf.2) →
    (∀ kv ∈ st.results, kv.1 ≠ n) →
    (∀ kv ∈ (chunk.foldl ghPkgStep st).results, kv.1 ≠ n) ∧
    (n ∈ chunk → n ∈ (chunk.foldl ghPkgStep st).queue ∨
      n ∈ (chunk.foldl ghPkgStep st).attempted) := by
  intro chunk
  induction chunk with
  | nil =>
    intro st hc hr
    exact ⟨hr, fun hmem => absurd hmem (List.not_mem_nil n)⟩
  | cons pkg rest ih =>
    intro st hc hr
    rw [List.foldl_cons]
    obtain ⟨hsc, _, _⟩ := ghPkgStep_structural st pkg
    obtain ⟨hsr, hspkg⟩ := ghPkgStep_semantic F n Hn st pkg hc hr
    have hc1 : ∀ bf ∈ (ghPkgStep st pkg).cache, F bf.1 = .ok bf.2 := by
      rw [hsc]
      exact hc
    obtain ⟨hfr, hfmem⟩ := ih (ghPkgStep st pkg) hc1 hsr
    refine ⟨hfr, ?_⟩
    intro hmem
    rcases List.mem_cons.mp hmem with rfl | h2
    · obtain ⟨A, hq, ha, _, _, _, _⟩ := ghFold_structural rest (ghPkgStep st n)
      rcases hspkg rfl with h3 | h3
      · exact Or.inl (by rw [hq]; exact List.mem_append.mpr (Or.inl h3))
      · exact Or.inr (by rw [ha]; exact List.mem_append.mpr (Or.inl h3))
    · exact hfmem h2

theorem filter_length_mono (p q : String → Bool)
    (h : ∀ x, p x = true → q x = true) :
    ∀ l : List String, (l.filter p).length ≤ (l.filter q).length := by
  intro l
  induction l with
  | nil => simp
  | cons x rest ih =>
    by_cases hp : p x = true
    · rw [List.filter_cons_of_pos hp, List.filter_cons_of_pos (h x hp)]
      simpa using ih
    · rw [List.filter_cons_of_neg (by simpa using hp)]
      by_cases hq : q x = true
      · rw [List.filter_cons_of_pos hq]
        exact Nat.le_succ_of_le ih
      · rw [List.filter_cons_of_neg (by simpa using hq)]
        exact ih

theorem nodup_sub_length_le (A B : List String) (h1 : A.Nodup)
    (h2 : ∀ a ∈ A, a ∈ B) : A.length ≤ B.length := by
  calc A.length = A.toFinset.card := (List.toFinset_card_of_nodup h1).symm
    _ ≤ B.toFinset.card := Finset.card_le_card
      (fun x hx => List.mem_toFinset.mpr (h2 x (List.mem_toFinset.mp hx)))
    _ ≤ B.length := List.toFinset_card_le B

theorem ghIter_cases (F : String → Except FetchErr (List AurInfo))
    (st st2 : GhState) (h : ghIter F st = .ok st2) :
    ((((st.queue.take 100).filter
        fun pkg => !(st.results.lookup pkg).isSome).isEmpty = true ∧
      st2 = { st with queue := st.queue.drop 100 }) ∨
    (∃ fetched, (∀ bf ∈ fetched, F bf.1 = .ok bf.2) ∧
      st2 = ((st.queue.take 100).filter
          fun pkg => !(st.results.lookup pkg).isSome).foldl ghPkgStep
        { st with
          queue := st.queue.drop 100
          cache := (ghInsertFetched fetched st.cache st.p2b).1
          p2b := (ghInsertFetched fetched st.cache st.p2b).2 })) := by
  simp only [ghIter] at h
  by_cases hemp : (((st.queue.take 100).filter
      fun pkg => !(st.results.lookup pkg).isSome)).isEmpty = true
  · rw [if_pos hemp] at h
    injection h with h
    exact Or.inl ⟨hemp, h.symm⟩
  · rw [if_neg hemp] at h
    cases hfetch : fetchBranchesSeq F (dedupAdj (sortStrings
        (((((st.queue.take 100).filter
            fun pkg => !(st.results.lookup pkg).isSome)).map
          fun pkg => (st.p2b.lookup pkg).getD pkg).filter
          fun b => !(st.cache.lookup b).isSome))) with
    | error e =>
      rw [hfetch] at h
      exact Except.noConfusion h
    | ok fetched =>
      rw [hfetch] at h
      injection h with h
      exact Or.inr ⟨fetched, fetchBranchesSeq_ok_mem F _ fetched hfetch, h.symm⟩

theorem ghIter_ok_of_total (F : String → Except FetchErr (List AurInfo))
    (Hok : ∀ b, ∃ l, F b = .ok l) (st : GhState) :
    ∃ st2, ghIter F st = .ok st2 := by
  simp only [ghIter]
  by_cases hemp : (((st.queue.take 100).filter
      fun pkg => !(st.results.lookup pkg).isSome)).isEmpty = true
  · rw [if_pos hemp]
    exact ⟨_, rfl⟩
  · rw [if_neg hemp]
    obtain ⟨fetched, hfetch⟩ := fetchBranchesSeq_total F Hok _
    rw [hfetch]
    exact ⟨_, rfl⟩

/-- The loop invariant for an unfindable name `n`: the cache reflects
the oracle, no result is keyed `n`, the re-queued list has no
duplicates, and `n` is still queued or already re-queued. -/
def GhInv (F : String → Except FetchErr (List AurInfo)) (n : String)
    (st : GhState) : Prop :=
  (∀ bf ∈ st.cache, F bf.1 = .ok bf.2) ∧
  (∀ kv ∈ st.results, kv.1 ≠ n) ∧
  st.attempted.Nodup ∧
  (n ∈ st.queue ∨ n ∈ st.attempted)

theorem ghIter_measure (F : String → Except FetchErr (List AurInfo))
    (st st2 : GhState) (hne : st.queue ≠ [])
    (h : ghIter F st = .ok st2) : ghMeasure st2 < ghMeasure st := by
  have hqsplit : st.queue.take 100 ++ st.queue.drop 100 = st.queue :=
    List.take_append_drop 100 st.queue
  have htklen : 1 ≤ (st.queue.take 100).length := by
    rw [List.length_take]
    have : 1 ≤ st.queue.length := List.length_pos.mpr hne
    omega
  have hA : (st.queue.take 100).length + (st.queue.drop 100).length =
      st.queue.length := by
    have := congrArg List.length hqsplit
    rw [List.length_append] at this
    exact this
  have hB : ((st.queue.take 100).filter
        fun p => !(st.attempted.contains p)).length +
      ((st.queue.drop 100).filter fun p => !(st.attempted.contains p)).length =
      (st.queue.filter fun p => !(st.attempted.contains p)).length := by
    have := congrArg
      (fun l => (l.filter fun p => !(st.attempted.contains p)).length) hqsplit
    simp only [List.filter_append, List.length_append] at this
    exact this
  rcases ghIter_cases F st st2 h with ⟨_, hst2⟩ | ⟨fetched, _, hst2⟩
  · rw [hst2]
    unfold ghMeasure
    simp only
    omega
  · obtain ⟨A, hq, ha, _, _, hnd, hel⟩ := ghFold_structural
      ((st.queue.take 100).filter fun pkg => !(st.results.lookup pkg).isSome)
      { st with
        queue := st.queue.drop 100
        cache := (ghInsertFetched fetched st.cache st.p2b).1
        p2b := (ghInsertFetched fetched st.cache st.p2b).2 }
    rw [hst2]
    unfold ghMeasure
    rw [hq, ha]
    simp only
    have hAfilter : ((st.queue.drop 100 ++ A).filter
        fun p => !((st.attempted ++ A).contains p)).length =
        ((st.queue.drop 100).filter
          fun p => !((st.attempted ++ A).contains p)).length := by
      rw [List.filter_append]
      have hnil : (A.filter fun p => !((st.attempted ++ A).contains p)) = [] := by
        rw [List.filter_eq_nil_iff]
        intro a hmem
        have hcc : (st.attempted ++ A).contains a = true :=
          List.elem_eq_true_of_mem (List.mem_append.mpr (Or.inr hmem))
        rw [hcc]
        decide
      rw [hnil, List.append_nil]
    rw [List.length_append, hAfilter]
    have hmono : ((st.queue.drop 100).filter
        fun p => !((st.attempted ++ A).contains p)).length ≤
        ((st.queue.drop 100).filter fun p => !(st.attempted.contains p)).length := by
      apply filter_length_mono
      intro x hx
      simp only [Bool.not_eq_true'] at hx ⊢
      cases hcc : st.attempted.contains x
      · rfl
      · exfalso
        have hmem2 : (st.attempted ++ A).contains x = true :=
          List.elem_eq_true_of_mem
            (List.mem_append.mpr (Or.inl (List.mem_of_elem_eq_true hcc)))
        rw [hx] at hmem2
        exact Bool.noConfusion hmem2
    have hAlen : A.length ≤
        ((st.queue.take 100).filter fun p => !(st.attempted.contains p)).length := by
      apply nodup_sub_length_le A _ hnd
      intro a ha2
      obtain ⟨h1, h2⟩ := hel a ha2
      have h3 : a ∈ st.queue.take 100 := (List.mem_filter.mp h1).1
      rw [List.mem_filter]
      refine ⟨h3, ?_⟩
      simp only [Bool.not_eq_true']
      cases hcc : st.attempted.contains a
      · rfl
      · exact absurd (List.mem_of_elem_eq_true hcc) h2
    omega

theorem ghIter_inv (F : String → Except FetchErr (List AurInfo))
    (n : String) (Hn : ∀ b l, F b = .ok l → ∀ i ∈ l, i.name ≠ n)
    (st st2 : GhState) (hinv : GhInv F n st)
    (h : ghIter F st = .ok st2) : GhInv F n st2 := by
  obtain ⟨hc, hr, hatt, hmem⟩ := hinv
  have hntake : n ∈ st.queue.take 100 →
      n ∈ (st.queue.take 100).filter fun pkg => !(st.results.lookup pkg).isSome := by
    intro h2
    rw [List.mem_filter]
    refine ⟨h2, ?_⟩
    rw [lookup_none_of_keys_ne st.results n hr]
    rfl
  rcases ghIter_cases F st st2 h with ⟨hemp, hst2⟩ | ⟨fetched, hfok, hst2⟩
  · subst hst2
    refine ⟨hc, hr, hatt, ?_⟩
    rcases hmem with h2 | h2
    · left
      rw [← List.take_append_drop 100 st.queue] at h2
      rcases List.mem_append.mp h2 with h3 | h3
      · exfalso
        have := hntake h3
        rw [List.isEmpty_iff.mp hemp] at this
        exact List.not_mem_nil n this
      · exact h3
    · exact Or.inr h2
  · have hcbase : ∀ bf ∈ (ghInsertFetched fetched st.cache st.p2b).1,
        F bf.1 = .ok bf.2 := by
      intro bf hbf
      rcases ghInsertFetched_cache_mem fetched st.cache st.p2b bf hbf with h2 | h2
      · exact hc bf h2
      · exact hfok bf h2
    obtain ⟨hfr, hfmem⟩ := ghFold_semantic F n Hn
      ((st.queue.take 100).filter fun pkg => !(st.results.lookup pkg).isSome)
      { st with
        queue := st.queue.drop 100
        cache := (ghInsertFetched fetched st.cache st.p2b).1
        p2b := (ghInsertFetched fetched st.cache st.p2b).2 }
      hcbase hr
    obtain ⟨A, hq, ha, hcc, _, hnd, hel⟩ := ghFold_structural
      ((st.queue.take 100).filter fun pkg => !(st.results.lookup pkg).isSome)
      { st with
        queue := st.queue.drop 100
        cache := (ghInsertFetched fetched st.cache st.p2b).1
        p2b := (ghInsertFetched fetched st.cache st.p2b).2 }
    subst hst2
    refine ⟨?_, hfr, ?_, ?_⟩
    · rw [hcc]
      exact hcbase
    · rw [ha]
      simp only
      rw [List.nodup_append]
      refine ⟨hatt, hnd, ?_⟩
      intro a h2 h3
      exact (hel a h3).2 h2
    · rcases hmem with h2 | h2
      · rw [← List.take_append_drop 100 st.queue] at h2
        rcases List.mem_append.mp h2 with h3 | h3
        · exact hfmem (hntake h3)
        · left
          rw [hq]
          exact List.mem_append.mpr (Or.inl h3)
      · right
        rw [ha]
        exact List.mem_append.mpr (Or.inl h2)

theorem ghLoop_total (F : String → Except FetchErr (List AurInfo)) :
    ∀ (fuel : Nat) (st : GhState), ghMeasure st ≤ fuel →
    ghLoop F fuel st ≠ none := by
  intro fuel
  induction fuel with
  | zero =>
    intro st hle
    have hlen : st.queue.length = 0 := by
      unfold ghMeasure at hle
      omega
    have hq : st.queue = [] := List.length_eq_zero.mp hlen
    simp [ghLoop, hq]
  | succ fuel ih =>
    intro st hle
    simp only [ghLoop]
    by_cases hq : st.queue.isEmpty = true
    · rw [if_pos hq]
      simp
    · rw [if_neg hq]
      cases hiter : ghIter F st with
      | error e => simp
      | ok st2 =>
        have hne : st.queue ≠ [] := by
          intro h2
          rw [h2] at hq
          exact hq rfl
        have := ghIter_measure F st st2 hne hiter
        exact ih st2 (by omega)

theorem ghLoop_inv (F : String → Except FetchErr (List AurInfo)) (n : String)
    (Hn : ∀ b l, F b = .ok l → ∀ i ∈ l, i.name ≠ n)
    (Hok : ∀ b, ∃ l, F b = .ok l) :
    ∀ (fuel : Nat) (st : GhState), ghMeasure st ≤ fuel → GhInv F n st →
    ∃ stF, ghLoop F fuel st = some (.ok stF) ∧ stF.queue = [] ∧
      GhInv F n stF := by
  intro fuel
  induction fuel with
  | zero =>
    intro st hle hinv
    have hlen : st.queue.length = 0 := by
      unfold ghMeasure at hle
      omega
    have hq : st.queue = [] := List.length_eq_zero.mp hlen
    refine ⟨st, ?_, hq, hinv⟩
    simp [ghLoop, hq]
  | succ fuel ih =>
    intro st hle hinv
    simp only [ghLoop]
    by_cases hq : st.queue.isEmpty = true
    · rw [if_pos hq]
      exact ⟨st, rfl, List.isEmpty_iff.mp hq, hinv⟩
    · rw [if_neg hq]
      obtain ⟨st2, hiter⟩ := ghIter_ok_of_total F Hok st
      rw [hiter]
      have hne : st.queue ≠ [] := by
        intro h2
        rw [h2] at hq
        exact hq rfl
      have hdec := ghIter_measure F st st2 hne hiter
      exact ih st2 (by omega) (ghIter_inv F n Hn st st2 hinv hiter)

/-- C8.  The mirror fetch loop always terminates within its measure
budget (for any oracle, including failing ones); and when the fetches
succeed and a requested name `n` is absent from every branch the oracle
serves, the loop ends without error, `n` is silently absent from the
returned result map, and `n` was re-queued exactly once (the `attempts`
map marks exactly the re-queued packages, and `n` is marked exactly
once). -/
theorem github_fetch_loop_spec (F : String → Except FetchErr (List AurInfo))
    (names : List String) (n : String) (hn : n ∈ names)
    (Hok : ∀ b, ∃ l, F b = .ok l)
    (Hn : ∀ b l, F b = .ok l → ∀ i ∈ l, i.name ≠ n) :
    (∀ G : String → Except FetchErr (List AurInfo),
      github_fetch_infos G names ≠ none) ∧
    ∃ res : List (String × AurInfo),
      github_fetch_infos F names = some (.ok res) ∧
      (∀ kv ∈ res, kv.1 ≠ n) ∧
      ∃ stF : GhState,
        ghLoop F (ghMeasure (ghInit names) + 1) (ghInit names) =
          some (.ok stF) ∧
        stF.results = res ∧ stF.queue = [] ∧ stF.attempted.count n = 1 := by
  constructor
  · intro G
    unfold github_fetch_infos
    cases hloop : ghLoop G (ghMeasure (ghInit names) + 1) (ghInit names) with
    | none =>
      exact absurd hloop (ghLoop_total G _ (ghInit names) (Nat.le_succ _))
    | some v => simp
  · have hinit : GhInv F n (ghInit names) := by
      refine ⟨?_, ?_, List.nodup_nil, Or.inl hn⟩
      · intro bf hbf
        exact absurd hbf (List.not_mem_nil bf)
      · intro kv hkv
        exact absurd hkv (List.not_mem_nil kv)
    obtain ⟨stF, hloop, hqnil, hinv⟩ := ghLoop_inv F n Hn Hok
      (ghMeasure (ghInit names) + 1) (ghInit names) (Nat.le_succ _) hinit
    refine ⟨stF.results, ?_, hinv.2.1, stF, hloop, rfl, hqnil, ?_⟩
    · unfold github_fetch_infos
      rw [hloop]
      rfl
    · have hmem : n ∈ stF.attempted := by
        rcases hinv.2.2.2 with h2 | h2
        · rw [hqnil] at h2
          exact absurd h2 (List.not_mem_nil n)
        · exact h2
      exact List.count_eq_one_of_mem hinv.2.2.1 hmem

/-- Witness for C8: with an oracle that serves no records at all, a
request for `foo` terminates and yields an empty, errorless result. -/
theorem github_fetch_loop_spec_witness :
    github_fetch_infos (fun _ => .ok []) ["foo"] ≠ none ∧
    github_fetch_infos (fun _ => .ok []) ["foo"] = some (.ok []) := by
  constructor
  · exact (github_fetch_loop_spec (fun _ => .ok []) ["foo"] "foo"
      (by decide) (fun b => ⟨[], rfl⟩)
      (by
        intro b l h i hi
        injection h with h
        rw [← h] at hi
        exact absurd hi (List.not_mem_nil i))).1 (fun _ => .ok [])
  · decide

end Turbo
